import Mathlib

/-!
# Verification of the astral version-control core

A shallow embedding, in Lean 4, of the parts of the `astral` repository
(Go) that the analysed properties talk about:

* `internal/core/hash.go` and `internal/core/object.go` — digests, the
  commit/tree codec;
* `internal/diff/diff.go` — Myers line diff, hunks, `Patch`;
* `internal/merge/algorithm.go` — three-way content merge;
* `internal/merge` (state file, LCA, ancestor walk);
* `internal/repository` (save, merge, refs, checkout);
* `internal/transfer/transfer.go` — push-pack reachability walk.

Byte strings are modelled as `List Char` (each element standing for one
byte; all bytes that occur in the repository's formats are below 256 and
side conditions state this where hex encoding matters).  Go functions
are translated statement by statement; fallible Go functions return
`Option`/`Except`, and the one place where the Go code can raise a
runtime slice-bounds panic (`DecodeTree`) is modelled with an explicit
`panic`-style result constructor.
-/

namespace Astral

/-- Byte strings / Go strings: a list of characters, one per byte. -/
abbrev Bytes := List Char

/-! ## String utilities mirrored from Go's `strings`/`bytes` packages -/

/-- `strings.Split(s, sep)` for a one-character separator: splitting the
empty string yields `[""]`, and `n` separators yield `n+1` fields. -/
def splitOnChar (sep : Char) : Bytes → List Bytes
  | [] => [[]]
  | c :: rest =>
    let r := splitOnChar sep rest
    if c = sep then [] :: r
    else
      match r with
      | [] => [[c]]
      | h :: t => (c :: h) :: t

/-- `strings.Join(parts, sep)` for a one-character separator. -/
def joinChar (sep : Char) : List Bytes → Bytes
  | [] => []
  | [x] => x
  | x :: xs => x ++ sep :: joinChar sep xs

/-- `bytes.SplitN(s, sep, 2)` for a one-character separator: at most two
fields, the second one containing the remainder verbatim. -/
def splitN2 (sep : Char) (s : Bytes) : List Bytes :=
  let before := s.takeWhile (· ≠ sep)
  if before.length = s.length then [s]
  else [before, s.drop (before.length + 1)]

/-- The character class trimmed by Go's `strings.TrimSpace`
(`unicode.IsSpace`). -/
def goIsSpace (c : Char) : Bool :=
  c = ' ' ∨ c = '\t' ∨ c = '\n' ∨ c = (Char.ofNat 11) ∨ c = (Char.ofNat 12) ∨
  c = '\r' ∨ c = (Char.ofNat 0x85) ∨ c = (Char.ofNat 0xA0) ∨
  c = (Char.ofNat 0x1680) ∨ (0x2000 ≤ c.toNat ∧ c.toNat ≤ 0x200A) ∨
  c = (Char.ofNat 0x2028) ∨ c = (Char.ofNat 0x2029) ∨
  c = (Char.ofNat 0x202F) ∨ c = (Char.ofNat 0x205F) ∨ c = (Char.ofNat 0x3000)

/-- `strings.TrimSpace`. -/
def trimGo (s : Bytes) : Bytes :=
  ((s.dropWhile goIsSpace).reverse.dropWhile goIsSpace).reverse

/-- `bytes.IndexByte`: index of the first occurrence, if any. -/
def indexOfChar (sep : Char) (s : Bytes) : Option Nat :=
  s.findIdx? (· = sep)

/-! ## Numeric codecs (hex digests, octal modes, decimal timestamps) -/

/-- Digit extraction with an explicit iteration bound (the quotient
shrinks strictly each round, so `n + 1` rounds always suffice). -/
def natDigitsF : Nat → Nat → Nat → List Nat
  | 0, _, n => [n]
  | fuel + 1, b, n =>
    if n < b ∨ b ≤ 1 then [n]
    else natDigitsF fuel b (n / b) ++ [n % b]

/-- Digits of `n` in base `b` (most significant first); `[0]` for zero.
Mirrors the digit sequence printed by Go's `fmt` verbs `%o`/`%d`. -/
def natDigits (b n : Nat) : List Nat :=
  natDigitsF (n + 1) b n

/-- Value of a digit list in base `b` (inverse of `natDigits`). -/
def digitsVal (b : Nat) (ds : List Nat) : Nat :=
  ds.foldl (fun a d => a * b + d) 0

/-- A single decimal/octal digit character. -/
def digitChar (d : Nat) : Char := Char.ofNat ('0'.toNat + d)

/-- Numeric value of a decimal digit character. -/
def digitVal (c : Char) : Nat := c.toNat - '0'.toNat

/-- `fmt.Sprintf("%o", n)`. -/
def natToOctal (n : Nat) : Bytes := (natDigits 8 n).map digitChar

/-- `fmt.Sscanf(s, "%o", &mode)` on a pure digit string: the accumulated
octal value (Go's scanner reads the leading octal digits). -/
def parseOctal (s : Bytes) : Nat :=
  s.foldl (fun a c => a * 8 + digitVal c) 0

/-- `fmt.Sprintf("%d", n)` for a natural number. -/
def natToDec (n : Nat) : Bytes := (natDigits 10 n).map digitChar

/-- `fmt.Sprintf("%d", i)` for an integer (sign prefix for negatives). -/
def intToDec (i : Int) : Bytes :=
  if i < 0 then '-' :: natToDec i.natAbs else natToDec i.natAbs

/-- Decimal value of a pure digit string. -/
def parseDecNat (s : Bytes) : Nat :=
  s.foldl (fun a c => a * 10 + digitVal c) 0

/-- `fmt.Sscanf(s, "%d", &i)` on the decimal form produced by `%d`:
an optional minus sign followed by digits. -/
def parseDecInt (s : Bytes) : Int :=
  match s with
  | [] => 0
  | c :: rest =>
    if c = '-' then -(parseDecNat rest : Int) else (parseDecNat (c :: rest) : Int)

/-- The sixteen lowercase hex digit characters, as emitted by
`hex.EncodeToString`. -/
def hexDigit (d : Nat) : Char :=
  if d < 10 then Char.ofNat ('0'.toNat + d) else Char.ofNat ('a'.toNat + (d - 10))

/-- Hex value of one character, accepting both cases
(`hex.DecodeString`); `none` for a non-hex character. -/
def hexVal? (c : Char) : Option Nat :=
  if '0' ≤ c ∧ c ≤ '9' then some (c.toNat - '0'.toNat)
  else if 'a' ≤ c ∧ c ≤ 'f' then some (c.toNat - 'a'.toNat + 10)
  else if 'A' ≤ c ∧ c ≤ 'F' then some (c.toNat - 'A'.toNat + 10)
  else none

/-- `hex.EncodeToString`: two lowercase digits per byte. -/
def bytesToHex (s : Bytes) : Bytes :=
  s.flatMap (fun c => [hexDigit (c.toNat / 16), hexDigit (c.toNat % 16)])

/-- `hex.DecodeString`: pairs of hex digits; fails on odd length or a
non-hex character. -/
def hexToBytes? : Bytes → Option Bytes
  | [] => some []
  | [_] => none
  | c1 :: c2 :: rest =>
    match hexVal? c1, hexVal? c2, hexToBytes? rest with
    | some hi, some lo, some bs => some (Char.ofNat (16 * hi + lo) :: bs)
    | _, _, _ => none

/-! ## Digests (`internal/core/hash.go`)

A `Hash` in Go is `[32]byte`.  We model it as a plain byte list; the
fixed length 32 and byte range `< 256` appear as side conditions on the
theorems where they matter. -/

/-- A digest value (Go `core.Hash`, `[32]byte`). -/
abbrev Hash := Bytes

/-- The zero digest (`core.Hash{}`), reserved to mean "absent". -/
def zeroHash : Hash := List.replicate 32 (Char.ofNat 0)

/-- `Hash.IsZero`. -/
def hashIsZero (h : Hash) : Bool := h = zeroHash

/-- `Hash.String()`: lowercase hex rendering. -/
def hashString (h : Hash) : Bytes := bytesToHex h

/-- `core.ParseHash`: hex-decode, then require exactly 32 bytes. -/
def parseHash (s : Bytes) : Option Hash :=
  match hexToBytes? s with
  | none => none
  | some bs => if bs.length = 32 then some bs else none

/-! ## The commit/tree codec of `internal/core/object.go` (as in src)

The `object.go` under `src/` carries a single optional `Parent Hash`
field (the merge-era caller code uses a `Parents []Hash` field; that
newer codec is not part of `src/` and is modelled separately below from
the spec). -/

/-- `core.Commit` as declared in `src/internal/core/object.go`:
a single optional parent.  `Timestamp` is modelled by its Unix-seconds
value, which is what `EncodeCommit` writes. -/
structure Commit where
  tree : Hash
  parent : Hash
  author : Bytes
  email : Bytes
  timestamp : Int
  message : Bytes
deriving DecidableEq, Repr

/-- `core.TreeEntry`; `Mode` is a `uint32` file mode. -/
structure TreeEntry where
  mode : Nat
  name : Bytes
  hash : Hash
deriving DecidableEq, Repr

/-- `core.Tree`. -/
structure Tree where
  entries : List TreeEntry
deriving DecidableEq, Repr

/-- `core.EncodeCommit`: a `tree` line, an optional `parent` line (only
when the parent is nonzero), an `author` line, a blank line, then the
message followed by a final newline. -/
def encodeCommit (c : Commit) : Bytes :=
  ("tree ".toList ++ hashString c.tree ++ ['\n']) ++
  (if hashIsZero c.parent then [] else
    "parent ".toList ++ hashString c.parent ++ ['\n']) ++
  ("author ".toList ++ c.author ++ " <".toList ++ c.email ++ "> ".toList ++
    intToDec c.timestamp ++ ['\n']) ++
  ('\n' :: (c.message ++ ['\n']))

/-- The zero `core.Commit{}` that `DecodeCommit` starts from.  (Go's
zero `time.Time` is modelled as timestamp 0; every input considered by
the theorems below carries an author line that overwrites it.) -/
def emptyCommit : Commit :=
  { tree := zeroHash, parent := zeroHash, author := [], email := [],
    timestamp := 0, message := [] }

/-- The `case "author"` arm of `DecodeCommit`: split sanity check, then
locate `<`/`>`, trim the name, take the email between the brackets and
scan the decimal timestamp after them.  (Go indexes the string directly;
`List.take`/`List.drop` are the total slicing used here — all inputs in
the theorems keep the indices in range.) -/
def decodeAuthorValue (value : Bytes) (c : Commit) : Option Commit :=
  if (splitOnChar ' ' value).length < 3 then none
  else
    match indexOfChar '<' value, indexOfChar '>' value with
    | some es, some ee =>
      some { c with
        author := trimGo (value.take es),
        email := (value.drop (es + 1)).take (ee - (es + 1)),
        timestamp := parseDecInt (value.drop (ee + 2)) }
    | _, _ => none

/-- The header loop of `DecodeCommit`: fold the lines before the first
blank line into the commit record; return the lines after the blank
line (or `none` if no blank line was found). -/
def decodeCommitFields : List Bytes → Commit → Option (Commit × Option (List Bytes))
  | [], c => some (c, none)
  | line :: rest, c =>
    if line = [] then some (c, some rest)
    else
      match splitN2 ' ' line with
      | [key, value] =>
        if key = "tree".toList then
          match parseHash value with
          | none => none
          | some h => decodeCommitFields rest { c with tree := h }
        else if key = "parent".toList then
          match parseHash value with
          | none => none
          | some h => decodeCommitFields rest { c with parent := h }
        else if key = "author".toList then
          match decodeAuthorValue value c with
          | none => none
          | some c' => decodeCommitFields rest c'
        else decodeCommitFields rest c
      | _ => decodeCommitFields rest c

/-- `core.DecodeCommit`. -/
def decodeCommit (data : Bytes) : Option Commit :=
  let lines := splitOnChar '\n' data
  if lines.length < 4 then none
  else
    match decodeCommitFields lines emptyCommit with
    | none => none
    | some (c, none) => some c
    | some (c, some msgLines) =>
      if msgLines = [] then some c
      else some { c with message := trimGo (joinChar '\n' msgLines) }

/-- `core.EncodeTree`: per entry `"<octal-mode> <name>\0"` followed by
the 32 raw digest bytes, concatenated with no separators. -/
def encodeTree (t : Tree) : Bytes :=
  t.entries.flatMap (fun e =>
    natToOctal e.mode ++ ' ' :: (e.name ++ Char.ofNat 0 :: e.hash))

/-- Result of `core.DecodeTree`, with the Go runtime panic that the
slice expression `data[nullIdx+1 : nullIdx+33]` raises (for an
exactly-sized buffer) modelled explicitly. -/
inductive TreeResult where
  | ok (t : Tree)
  | err
  | panic
deriving DecidableEq, Repr

/-- The loop of `core.DecodeTree`.  Per iteration: find the NUL; break
when there is none or fewer than 32 bytes follow the NUL-position
(`nullIdx+32 > len(data)`); reject a header without a space; then the
hash copy `data[nullIdx+1 : nullIdx+33]` panics when `nullIdx+33`
exceeds the buffer length. -/
def decodeTreeLoop (fuel : Nat) (data : Bytes) (acc : List TreeEntry) :
    TreeResult :=
  match fuel with
  | 0 => .ok ⟨acc⟩
  | fuel + 1 =>
    if data = [] then .ok ⟨acc⟩
    else
      match indexOfChar (Char.ofNat 0) data with
      | none => .ok ⟨acc⟩
      | some i =>
        if i + 32 > data.length then .ok ⟨acc⟩
        else
          match splitN2 ' ' (data.take i) with
          | [modeStr, name] =>
            if i + 33 > data.length then .panic
            else
              decodeTreeLoop fuel (data.drop (i + 33))
                (acc ++ [⟨parseOctal modeStr, name, (data.drop (i + 1)).take 32⟩])
          | _ => .err

/-- `core.DecodeTree`.  Each loop iteration consumes at least 33 bytes,
so `length + 1` units of fuel always outlast the loop. -/
def decodeTree (data : Bytes) : TreeResult :=
  decodeTreeLoop (data.length + 1) data []

/-! ## The diff engine (`internal/diff/diff.go`)

The Myers loop indexes a flat `v` slice at `k+max` and keeps a trace of
per-D-level Go maps; a map read of an absent key yields the zero value,
which the model reproduces with a defaulted lookup. -/

/-- `diff.EditType`. -/
inductive EditType where
  | equal
  | insert
  | delete
deriving DecidableEq, Repr

/-- `diff.Edit`. -/
structure Edit where
  type : EditType
  text : Bytes
deriving DecidableEq, Repr

/-- `diff.Hunk`. -/
structure Hunk where
  oldStart : Nat
  oldCount : Nat
  newStart : Nat
  newCount : Nat
  edits : List Edit
deriving DecidableEq, Repr

/-- `diff.Diff`. -/
structure Diff where
  hunks : List Hunk
deriving DecidableEq, Repr

/-- `splitLines` (both `diff.go` and `algorithm.go` carry this
function): split on `\n`, discarding a trailing empty segment. -/
def splitLines (text : Bytes) : List Bytes :=
  if text = [] then []
  else
    let lines := splitOnChar '\n' text
    if lines.getLast? = some [] then lines.dropLast else lines

/-- Read of the `v` slice at index `k+max` (always in range in the Go
code; out-of-range defaults to 0 here). -/
def vGet (v : List Int) (idx : Int) : Int := v.getD idx.toNat 0

/-- Write of the `v` slice at index `k+max`. -/
def vSet (v : List Int) (idx : Int) (x : Int) : List Int := v.set idx.toNat x

/-- Go map read with zero default (`vCopy[k]` on an absent key is 0). -/
def mapGet (mp : List (Int × Int)) (k : Int) : Int := (mp.lookup k).getD 0

/-- `a[x]` for line lists; the Go loops only index in range. -/
def lineAt (xs : List Bytes) (i : Int) : Bytes := xs.getD i.toNat []

/-- The `for x < n && y < m && a[x] == b[y]` diagonal extension of the
forward Myers loop.  `fuel` only bounds the iteration for Lean's sake;
`n + m + 1` steps always exhaust the guard. -/
def extendDiag (a b : List Bytes) (n m : Nat) : Nat → Int → Int → Int × Int
  | 0, x, y => (x, y)
  | fuel + 1, x, y =>
    if x < (n : Int) ∧ y < (m : Int) ∧ lineAt a x = lineAt b y then
      extendDiag a b n m fuel (x + 1) (y + 1)
    else (x, y)

/-- The `for x > prevX && y > prevY` diagonal walk of `backtrack`,
prepending `Equal` edits (the Go code builds the list by prepending). -/
def backDiag (a : List Bytes) : Nat → Int → Int → Int → Int → List Edit →
    Int × Int × List Edit
  | 0, x, y, _, _, edits => (x, y, edits)
  | fuel + 1, x, y, prevX, prevY, edits =>
    if x > prevX ∧ y > prevY then
      backDiag a fuel (x - 1) (y - 1) prevX prevY
        (⟨.equal, lineAt a (x - 1)⟩ :: edits)
    else (x, y, edits)

/-- The `for d > 0` loop of `diff.backtrack`. -/
def backtrackLoop (a b : List Bytes) (trace : List (List (Int × Int))) :
    Nat → Int → Int → List Edit → Int × Int × List Edit
  | 0, x, y, edits => (x, y, edits)
  | d + 1, x, y, edits =>
    let dd : Int := (d + 1 : Nat)
    let v := trace.getD (d + 1) []
    let k := x - y
    let prevK : Int :=
      if k = -dd ∨ (k ≠ dd ∧ mapGet v (k - 1) < mapGet v (k + 1)) then k + 1
      else k - 1
    let prevX := mapGet v prevK
    let prevY := prevX - prevK
    let (x1, y1, edits1) := backDiag a ((x + y).toNat + 1) x y prevX prevY edits
    if x1 = prevX then
      backtrackLoop a b trace d x1 (y1 - 1) (⟨.insert, lineAt b (y1 - 1)⟩ :: edits1)
    else
      backtrackLoop a b trace d (x1 - 1) y1 (⟨.delete, lineAt a (x1 - 1)⟩ :: edits1)

/-- `diff.backtrack`: walk the trace back from level `d`, then flush the
leading equal diagonal. -/
def backtrack (a b : List Bytes) (trace : List (List (Int × Int))) (d : Nat) :
    List Edit :=
  let (x, y, edits) := backtrackLoop a b trace d (a.length) (b.length) []
  let (_, _, edits') := backDiag a ((x + y).toNat + 1) x y 0 0 edits
  edits'

/-- The `for k := -d; k <= d; k += 2` inner loop of `myersAlgorithm`:
either returns the updated `v` slice or the early `backtrack` result.
`cnt` counts the remaining `k` values (`d+1` of them per level). -/
def myersInner (a b : List Bytes) (n m max : Nat)
    (trace : List (List (Int × Int))) (d : Nat) :
    Nat → Int → List Int → List Int ⊕ List Edit
  | 0, _, v => .inl v
  | cnt + 1, k, v =>
    let x : Int :=
      if k = -(d : Int) ∨ (k ≠ (d : Int) ∧ vGet v (k - 1 + max) < vGet v (k + 1 + max)) then
        vGet v (k + 1 + max)
      else vGet v (k - 1 + max) + 1
    let y := x - k
    let (x1, y1) := extendDiag a b n m (n + m + 1) x y
    let v1 := vSet v (k + max) x1
    if x1 ≥ (n : Int) ∧ y1 ≥ (m : Int) then .inr (backtrack a b trace d)
    else myersInner a b n m max trace d cnt (k + 2) v1

/-- The `for d := 0; d <= max; d++` outer loop of `myersAlgorithm`,
saving the level's `vCopy` into the trace before the inner loop runs. -/
def myersOuter (a b : List Bytes) (n m max : Nat) :
    Nat → Nat → List Int → List (List (Int × Int)) → List Edit
  | 0, _, _, _ => []
  | fuel + 1, d, v, trace =>
    if d > max then []
    else
      let vCopy := (List.range (d + 1)).map
        (fun j => (-(d : Int) + 2 * j, vGet v (-(d : Int) + 2 * j + max)))
      let trace1 := trace ++ [vCopy]
      match myersInner a b n m max trace1 d (d + 1) (-(d : Int)) v with
      | .inr edits => edits
      | .inl v1 => myersOuter a b n m max fuel (d + 1) v1 trace1

/-- `diff.myersAlgorithm`: empty-side special cases, then the
forward/backward Myers passes. -/
def myersAlgorithm (a b : List Bytes) : List Edit :=
  let n := a.length
  let m := b.length
  if n = 0 ∧ m = 0 then []
  else if n = 0 then b.map (fun line => ⟨.insert, line⟩)
  else if m = 0 then a.map (fun line => ⟨.delete, line⟩)
  else
    let max := n + m
    myersOuter a b n m max (max + 1) 0 (List.replicate (2 * max + 1) 0) []

/-- State threaded through `groupIntoHunks`: the open hunk (if any), the
two running indexes and the context counters. -/
structure GroupSt where
  currentHunk : Option Hunk
  oldIdx : Nat
  newIdx : Nat
  contextBefore : Nat
  contextAfter : Nat
deriving Repr

/-- One step of the `groupIntoHunks` loop; `rest` is the tail of the
edits list after the current edit (used by the look-ahead). -/
def groupStep (oldLines : List Bytes) (context : Nat) (edit : Edit)
    (rest : List Edit) (hunks : List Hunk) (st : GroupSt) :
    List Hunk × GroupSt :=
  match edit.type with
  | .equal =>
    match st.currentHunk with
    | none =>
      let cb := min (st.contextBefore + 1) context
      (hunks, { st with contextBefore := cb, oldIdx := st.oldIdx + 1,
                        newIdx := st.newIdx + 1 })
    | some h =>
      let ca := st.contextAfter + 1
      let hasMoreChanges := (rest.take context).any (fun e => ¬(e.type = .equal))
      if ¬hasMoreChanges ∧ ca ≥ context then
        (hunks ++ [h],
         { st with currentHunk := none, contextBefore := 0, contextAfter := 0,
                   oldIdx := st.oldIdx + 1, newIdx := st.newIdx + 1 })
      else
        (hunks,
         { st with
             currentHunk := some { h with
               edits := h.edits ++ [edit],
               oldCount := h.oldCount + 1, newCount := h.newCount + 1 },
             contextAfter := ca,
             oldIdx := st.oldIdx + 1, newIdx := st.newIdx + 1 })
  | _ =>
    let (h0, st0) :=
      match st.currentHunk with
      | some h => (h, st)
      | none =>
        let ctxEdits := (List.range st.contextBefore).map
          (fun j => (⟨.equal, lineAt oldLines ((st.oldIdx : Int) - (st.contextBefore - j : Nat))⟩ : Edit))
        (({ oldStart := st.oldIdx - st.contextBefore,
            newStart := st.newIdx - st.contextBefore,
            oldCount := st.contextBefore, newCount := st.contextBefore,
            edits := ctxEdits } : Hunk), st)
    let h1 := { h0 with edits := h0.edits ++ [edit] }
    match edit.type with
    | .delete =>
      (hunks, { st0 with
        currentHunk := some { h1 with oldCount := h1.oldCount + 1 },
        contextAfter := 0, oldIdx := st0.oldIdx + 1 })
    | _ =>
      (hunks, { st0 with
        currentHunk := some { h1 with newCount := h1.newCount + 1 },
        contextAfter := 0, newIdx := st0.newIdx + 1 })

/-- The loop of `groupIntoHunks`. -/
def groupLoop (oldLines : List Bytes) (context : Nat) :
    List Edit → List Hunk → GroupSt → List Hunk × GroupSt
  | [], hunks, st => (hunks, st)
  | e :: rest, hunks, st =>
    let (hunks1, st1) := groupStep oldLines context e rest hunks st
    groupLoop oldLines context rest hunks1 st1

/-- `diff.groupIntoHunks`. -/
def groupIntoHunks (edits : List Edit) (oldLines : List Bytes) (context : Nat) :
    List Hunk :=
  if edits = [] then []
  else
    let (hunks, st) := groupLoop oldLines context edits []
      ⟨none, 0, 0, 0, 0⟩
    match st.currentHunk with
    | some h => hunks ++ [h]
    | none => hunks

/-- `diff.MyersDiff` with its fixed three lines of context. -/
def myersDiff (oldText newText : Bytes) : Diff :=
  let oldLines := splitLines oldText
  let newLines := splitLines newText
  ⟨groupIntoHunks (myersAlgorithm oldLines newLines) oldLines 3⟩

/-- `diff.ApplyHunk`: keep the pre-hunk lines, emit the hunk's
non-deleted edits, resume at `OldStart+OldCount`. -/
def applyHunk (text : Bytes) (hunk : Hunk) : Bytes :=
  let lines := splitLines text
  let result := lines.take hunk.oldStart ++
    (hunk.edits.filter (fun e => ¬(e.type = .delete))).map (·.text)
  let result :=
    if hunk.oldStart + hunk.oldCount < lines.length then
      result ++ lines.drop (hunk.oldStart + hunk.oldCount)
    else result
  joinChar '\n' result

/-- `diff.Patch`: apply the hunks in declared order, each to the result
of the previous application. -/
def patch (text : Bytes) (d : Diff) : Bytes :=
  d.hunks.foldl applyHunk text

/-! ## Three-way content merge (`internal/merge/algorithm.go`) -/

/-- `merge.Conflict`. -/
structure Conflict where
  path : Bytes
  ctype : Bytes
  base : Bytes
  ours : Bytes
  theirs : Bytes
  lineStart : Nat
  lineEnd : Nat
deriving DecidableEq, Repr

/-- `merge.MergeResult` (content-merge result). -/
structure ContentMergeResult where
  content : Bytes
  conflicts : List Conflict
  hasConflict : Bool
deriving DecidableEq, Repr

/-- `isBinary`: a NUL byte anywhere, or more than 30% "non-text" bytes
in the first 8 KiB. -/
def isBinary (content : Bytes) : Bool :=
  if content.contains (Char.ofNat 0) then true
  else
    let sample := content.take 8192
    let nonText := (sample.filter (fun c =>
      c.toNat < 7 ∨ c.toNat = 11 ∨ (14 ≤ c.toNat ∧ c.toNat < 32 ∧ c.toNat ≠ 27))).length
    decide (nonText > sample.length * 30 / 100)

/-- `merge.ChangeInfo`. -/
structure ChangeInfo where
  type : EditType
  content : Bytes
  baseStart : Nat
  baseEnd : Nat
deriving DecidableEq, Repr

/-- One hunk's contribution to the change map: the flat, ordered list of
`(base line index, change)` pairs (a Go `map[int][]ChangeInfo` built by
appending is exactly a per-key ordered filter of this flat list). -/
def hunkChanges (hunk : Hunk) : List (Nat × ChangeInfo) :=
  (hunk.edits.foldl
    (fun (acc : List (Nat × ChangeInfo) × Nat) edit =>
      let (l, baseIdx) := acc
      match edit.type with
      | .insert => (l ++ [(baseIdx, ⟨edit.type, edit.text, baseIdx, baseIdx⟩)], baseIdx)
      | _ => (l ++ [(baseIdx, ⟨edit.type, edit.text, baseIdx, baseIdx + 1⟩)], baseIdx + 1))
    ([], hunk.oldStart)).1

/-- `buildChangeMap`, flattened. -/
def buildChangeMap (d : Diff) : List (Nat × ChangeInfo) :=
  d.hunks.flatMap hunkChanges

/-- `changes[i]` on the flattened change map. -/
def changesAt (m : List (Nat × ChangeInfo)) (i : Nat) : List ChangeInfo :=
  (m.filter (fun p => p.1 = i)).map (·.2)

/-- `editsIdentical`: same length, same types and contents. -/
def editsIdentical (a b : List ChangeInfo) : Bool :=
  a.length = b.length ∧
    (a.zip b).all (fun p => p.1.type = p.2.type ∧ p.1.content = p.2.content)

/-- `formatEdits`: concatenate the non-delete contents with newlines,
then strip one trailing newline. -/
def formatEdits (edits : List ChangeInfo) : Bytes :=
  let s := (edits.filter (fun e => ¬(e.type = .delete))).flatMap
    (fun e => e.content ++ ['\n'])
  if s.getLast? = some '\n' then s.dropLast else s

/-- Apply one side's edits for base line `i` (the one-side-changed arms
of `mergeLinesWithConflicts`): inserts emit their content, equals emit
the base line, deletes skip. -/
def applySideEdits (baseLine : Bytes) (edits : List ChangeInfo) : List Bytes :=
  edits.flatMap (fun e =>
    match e.type with
    | .insert => [e.content]
    | .equal => [baseLine]
    | .delete => [])

/-- The body of `mergeLinesWithConflicts` for base line `i`, threading
the merged lines and the conflicts list. -/
def mergeLineStep (path : Bytes) (baseLines : List Bytes)
    (ourChanges theirChanges : List (Nat × ChangeInfo)) (i : Nat)
    (acc : List Bytes × List Conflict) : List Bytes × List Conflict :=
  let (merged, conflicts) := acc
  let baseLine := lineAt baseLines i
  let ourEdits := changesAt ourChanges i
  let theirEdits := changesAt theirChanges i
  if ourEdits = [] ∧ theirEdits = [] then
    (merged ++ [baseLine], conflicts)
  else if ourEdits = [] then
    (merged ++ applySideEdits baseLine theirEdits, conflicts)
  else if theirEdits = [] then
    (merged ++ applySideEdits baseLine ourEdits, conflicts)
  else if editsIdentical ourEdits theirEdits then
    (merged ++ (ourEdits.filter (fun e => ¬(e.type = .delete))).map (·.content),
     conflicts)
  else
    let conflict : Conflict :=
      ⟨path, "content".toList, baseLine, formatEdits ourEdits,
        formatEdits theirEdits, i, i + 1⟩
    (merged ++ ["<<<CONFLICT_".toList ++ natToDec conflicts.length ++ ">>>".toList],
     conflicts ++ [conflict])

/-- `mergeLinesWithConflicts`: fold over the base line indices. -/
def mergeLinesWithConflicts (path : Bytes) (baseLines : List Bytes)
    (ourChanges theirChanges : List (Nat × ChangeInfo)) :
    List Bytes × List Conflict :=
  (List.range baseLines.length).foldl
    (fun acc i => mergeLineStep path baseLines ourChanges theirChanges i acc)
    ([], [])

/-- `generateConflictMarkers`: expand each `<<<CONFLICT_n>>>`
placeholder into the seven-character marker block. -/
def generateConflictMarkers (merged : List Bytes) (conflicts : List Conflict) :
    Bytes :=
  merged.flatMap (fun line =>
    if line.take 12 = "<<<CONFLICT_".toList then
      let idx := parseDecNat ((line.drop 12).takeWhile (·.isDigit))
      match conflicts[idx]? with
      | some c =>
        "<<<<<<< HEAD (ours)\n".toList ++ c.ours ++
        "\n||||||| BASE\n".toList ++ c.base ++
        "\n=======\n".toList ++ c.theirs ++
        "\n>>>>>>> theirs\n".toList
      | none => []
    else line ++ ['\n'])

/-- `generateBinaryConflictMarkers`. -/
def generateBinaryConflictMarkers (path : Bytes) : Bytes :=
  "<<<<<<< HEAD (ours)\nBinary file ".toList ++ path ++
  " (ours)\n=======\nBinary file ".toList ++ path ++
  " (theirs)\n>>>>>>> theirs\n\nCannot auto-merge binary files.\nUse 'asl resolve --ours ".toList ++
  path ++ "' or 'asl resolve --theirs ".toList ++ path ++ "'\n".toList

/-- `mergeContent`: diff both sides against base, merge line by line,
and either join the merged lines (restoring a final newline) or expand
the conflict placeholders. -/
def mergeContent (base ours theirs path : Bytes) : ContentMergeResult :=
  let diffOurs := myersDiff base ours
  let diffTheirs := myersDiff base theirs
  let ourChanges := buildChangeMap diffOurs
  let theirChanges := buildChangeMap diffTheirs
  let baseLines := splitLines base
  let (merged, conflicts) :=
    mergeLinesWithConflicts path baseLines ourChanges theirChanges
  if conflicts.length > 0 then
    { content := generateConflictMarkers merged conflicts,
      conflicts := conflicts, hasConflict := true }
  else
    let content := joinChar '\n' merged
    let content :=
      if merged.length > 0 ∧ ¬(content.getLast? = some '\n') then
        content ++ ['\n']
      else content
    { content := content, conflicts := [], hasConflict := false }

/-- `merge.ThreeWayMerge`. -/
def threeWayMerge (base ours theirs path : Bytes) : ContentMergeResult :=
  if isBinary base ∨ isBinary ours ∨ isBinary theirs then
    if ¬(ours = theirs) then
      { content := generateBinaryConflictMarkers path,
        conflicts := [⟨path, "binary".toList, base, ours, theirs, 0, 0⟩],
        hasConflict := true }
    else { content := ours, conflicts := [], hasConflict := false }
  else if ours = theirs then { content := ours, conflicts := [], hasConflict := false }
  else if ours = base then { content := theirs, conflicts := [], hasConflict := false }
  else if theirs = base then { content := ours, conflicts := [], hasConflict := false }
  else mergeContent base ours theirs path

/-! ## Merge-era commit objects and their codec

The repository layer (`internal/repository`, `internal/transfer`) works
with a `core.Commit` that carries `Parents []core.Hash`; the matching
`object.go` revision is not part of `src/` (only its tests and callers
are), so its codec is modelled from the spec. -/

/-- The merge-era `core.Commit`: `tree`, ordered `parents`, author,
email, Unix-seconds timestamp, message. -/
structure CommitM where
  tree : Hash
  parents : List Hash
  author : Bytes
  email : Bytes
  timestamp : Int
  message : Bytes
deriving DecidableEq, Repr

/-- Modelled from the spec: the merge-era `core.EncodeCommit` (the
revision with a `Parents` list, absent from `src/`).  "Encoded as a
line-oriented text: a `tree <hex>` line, zero or more `parent <hex>`
lines, one `author <name> <email> <unix-seconds>` line, a blank line,
then the message." -/
def encodeCommitM (c : CommitM) : Bytes :=
  "tree ".toList ++ hashString c.tree ++ ['\n'] ++
  (c.parents.flatMap (fun p => "parent ".toList ++ hashString p ++ ['\n'])) ++
  "author ".toList ++ c.author ++ " <".toList ++ c.email ++ "> ".toList ++
    intToDec c.timestamp ++ ['\n'] ++
  '\n' :: c.message

/-- Collect the leading `parent <hex>` lines. -/
def takeParentLines : List Bytes → Option (List Hash × List Bytes)
  | [] => some ([], [])
  | l :: rest =>
    if l.take 7 = "parent ".toList then
      match parseHash (l.drop 7), takeParentLines rest with
      | some h, some (ps, r) => some (h :: ps, r)
      | _, _ => none
    else some ([], l :: rest)

/-- Modelled from the spec: the merge-era `core.DecodeCommit` (the
revision with a `Parents` list, absent from `src/`).  Reads the `tree`
line, the `parent` lines in order, the `author <name> <email> <seconds>`
line, the blank separator, and takes the remaining lines verbatim as the
message ("Round-trip invariant holds"). -/
def decodeCommitM (data : Bytes) : Option CommitM :=
  match splitOnChar '\n' data with
  | [] => none
  | l0 :: rest =>
    if l0.take 5 = "tree ".toList then
      match parseHash (l0.drop 5), takeParentLines rest with
      | some treeH, some (parents, authorLine :: blank :: msgLines) =>
        if authorLine.take 7 = "author ".toList ∧ blank = [] then
          let value := authorLine.drop 7
          match indexOfChar '<' value, indexOfChar '>' value with
          | some es, some ee =>
            some { tree := treeH, parents := parents,
                   author := value.take (es - 1),
                   email := (value.drop (es + 1)).take (ee - (es + 1)),
                   timestamp := parseDecInt (value.drop (ee + 2)),
                   message := joinChar '\n' msgLines }
          | _, _ => none
        else none
      | _, _ => none
    else none

/-! ## The object store (`internal/storage/store.go`)

The store is content-addressed: `Put` frames `"<type> " || payload`,
hashes the frame, and persists keyed by the digest (idempotent when the
key is already present).  The hash function (`blake3`) is an opaque
cryptographic primitive and is a parameter `H` of every writing
operation. -/

/-- `core.ObjectType`. -/
inductive ObjType where
  | blob
  | tree
  | commit
deriving DecidableEq, Repr

/-- The lowercase variant name. -/
def objTypeName : ObjType → Bytes
  | .blob => "blob".toList
  | .tree => "tree".toList
  | .commit => "commit".toList

/-- A stored object (`core.Object` without the attached digest). -/
structure GoObj where
  type : ObjType
  data : Bytes
deriving DecidableEq, Repr

/-- The object database: digest-keyed contents. -/
abbrev Store := List (Hash × GoObj)

/-- The framed byte string `"<type> " || payload` that is hashed and
persisted. -/
def frameObj (t : ObjType) (data : Bytes) : Bytes :=
  objTypeName t ++ ' ' :: data

/-- `Store.Get` (cache and disk collapse to one map; a hit returns the
parsed frame). -/
def storeGet (st : Store) (h : Hash) : Option GoObj :=
  st.lookup h

/-- `Store.Put`: frame, hash, skip the write when the digest is already
present, return the digest either way. -/
def storePut (H : Bytes → Hash) (st : Store) (t : ObjType) (data : Bytes) :
    Hash × Store :=
  let h := H (frameObj t data)
  match storeGet st h with
  | some _ => (h, st)
  | none => (h, st ++ [(h, ⟨t, data⟩)])

/-- `Store.Exists`. -/
def storeExists (st : Store) (h : Hash) : Bool :=
  (storeGet st h).isSome

/-- `Store.PutBlob`. -/
def putBlob (H : Bytes → Hash) (st : Store) (data : Bytes) : Hash × Store :=
  storePut H st .blob data

/-- `Store.PutTree`. -/
def putTree (H : Bytes → Hash) (st : Store) (t : Tree) : Hash × Store :=
  storePut H st .tree (encodeTree t)

/-- `Store.PutCommit` (merge era). -/
def putCommit (H : Bytes → Hash) (st : Store) (c : CommitM) : Hash × Store :=
  storePut H st .commit (encodeCommitM c)

/-- `Store.GetCommit` (merge era): get, require the `commit` variant,
decode.  All failure modes collapse to `none`. -/
def getCommitM (st : Store) (h : Hash) : Option CommitM :=
  match storeGet st h with
  | none => none
  | some o => if o.type = .commit then decodeCommitM o.data else none

/-- `Store.GetTree`: get, require the `tree` variant, decode. -/
def getTreeM (st : Store) (h : Hash) : Option Tree :=
  match storeGet st h with
  | none => none
  | some o =>
    if o.type = .tree then
      match decodeTree o.data with
      | .ok t => some t
      | _ => none
    else none

/-! ## History walking (`internal/merge`, merge era: `commit.Parents`) -/

/-- Fuel that always outlasts a BFS over the store: every enqueue stems
from a parsed line or entry of some stored object, so the total byte
count bounds the enqueues. -/
def storeFuel (st : Store) (q0 : Nat) : Nat :=
  q0 + (st.map (fun p => p.2.data.length + 1)).sum + 1

/-- The BFS loop of `merge.IsAncestor`: pop, skip visited, test,
enqueue the nonzero parents (a commit that fails to load is a dead
end).  `none` only when the fuel (a modelling artefact) runs out. -/
def isAncestorLoop (st : Store) (ancestor : Hash) :
    Nat → List Hash → List Hash → Option Bool
  | 0, queue, _ => if queue = [] then some false else none
  | _ + 1, [], _ => some false
  | fuel + 1, h :: queue, visited =>
    if h ∈ visited then isAncestorLoop st ancestor fuel queue visited
    else
      let visited1 := visited ++ [h]
      if h = ancestor then some true
      else
        match getCommitM st h with
        | none => isAncestorLoop st ancestor fuel queue visited1
        | some c =>
          isAncestorLoop st ancestor fuel
            (queue ++ c.parents.filter (fun p => ¬hashIsZero p)) visited1

/-- `merge.IsAncestor`. -/
def isAncestor (st : Store) (ancestor commit : Hash) : Option Bool :=
  if ancestor = commit then some true
  else isAncestorLoop st ancestor (storeFuel st 1) [commit] []

/-- `merge.CanFastForward`: fast-forward is possible iff `base` is an
ancestor of `target`. -/
def canFastForward (st : Store) (base target : Hash) : Option Bool :=
  isAncestor st base target

/-- Phase one of `merge.FindLCA`: the multi-parent BFS closure of
`commit1` (the visited set, in visit order). -/
def ancestorSetLoop (st : Store) :
    Nat → List Hash → List Hash → Option (List Hash)
  | 0, queue, visited => if queue = [] then some visited else none
  | _ + 1, [], visited => some visited
  | fuel + 1, h :: queue, visited =>
    if h ∈ visited then ancestorSetLoop st fuel queue visited
    else
      let visited1 := visited ++ [h]
      match getCommitM st h with
      | none => ancestorSetLoop st fuel queue visited1
      | some c =>
        ancestorSetLoop st fuel
          (queue ++ c.parents.filter (fun p => ¬hashIsZero p)) visited1

/-- Result of `merge.FindLCA`. -/
inductive LcaResult where
  | found (h : Hash)
  | noCommon
  | fuelOut
deriving DecidableEq, Repr

/-- Phase two of `merge.FindLCA`: BFS from `commit2`, returning the
first node that lies in the ancestor set of `commit1`. -/
def lcaScanLoop (st : Store) (ancestors1 : List Hash) :
    Nat → List Hash → List Hash → LcaResult
  | 0, queue, _ => if queue = [] then .noCommon else .fuelOut
  | _ + 1, [], _ => .noCommon
  | fuel + 1, h :: queue, visited =>
    if h ∈ visited then lcaScanLoop st ancestors1 fuel queue visited
    else
      let visited1 := visited ++ [h]
      if h ∈ ancestors1 then .found h
      else
        match getCommitM st h with
        | none => lcaScanLoop st ancestors1 fuel queue visited1
        | some c =>
          lcaScanLoop st ancestors1 fuel
            (queue ++ c.parents.filter (fun p => ¬hashIsZero p)) visited1

/-- `merge.FindLCA`. -/
def findLCA (st : Store) (commit1 commit2 : Hash) : LcaResult :=
  match ancestorSetLoop st (storeFuel st 1) [commit1] [] with
  | none => .fuelOut
  | some ancestors1 => lcaScanLoop st ancestors1 (storeFuel st 1) [commit2] []

/-! ## Merge state (`internal/merge`, `MERGE_STATE`) -/

/-- `merge.ConflictInfo`. -/
structure ConflictInfo where
  path : Bytes
  ctype : Bytes
  resolved : Bool
deriving DecidableEq, Repr

/-- `merge.MergeState`; the commit digests are stored in their hex
rendering, as in the JSON state file. -/
structure MergeStateM where
  branch : Bytes
  baseCommit : Bytes
  ourCommit : Bytes
  theirCommit : Bytes
  strategy : Bytes
  conflicts : List ConflictInfo
  resolved : List Bytes
  autoMerged : List Bytes
deriving DecidableEq, Repr

/-- `MergeState.ValidateResolved`: every conflict must be resolved. -/
def validateResolved (s : MergeStateM) : Bool :=
  s.conflicts.all (·.resolved)

/-! ## The repository (`internal/repository`)

The filesystem side of a repository: the HEAD file contents, the ref
files (path to file contents), the object store, the working tree
(path to file data plus the executable bit) and the `MERGE_STATE`
record. -/

/-- A working-tree file: contents and the executable permission bit. -/
structure WorkFile where
  data : Bytes
  exec : Bool
deriving DecidableEq, Repr

/-- Update or append a key in an association list (a file write). -/
def setAssoc {α : Type} (l : List (Bytes × α)) (k : Bytes) (v : α) :
    List (Bytes × α) :=
  if l.any (fun p => p.1 = k) then
    l.map (fun p => if p.1 = k then (k, v) else p)
  else l ++ [(k, v)]

/-- The repository state. -/
structure Repo where
  head : Bytes
  refs : List (Bytes × Bytes)
  store : Store
  workdir : List (Bytes × WorkFile)
  mergeState : Option MergeStateM
deriving Repr

/-- `Repository.GetHEAD`: strip a `ref: ` prefix, drop the trailing
newline. -/
def getHEAD (r : Repo) : Bytes :=
  if r.head.length > 5 ∧ r.head.take 5 = "ref: ".toList then
    (r.head.drop 5).dropLast
  else r.head.dropLast

/-- `Repository.GetRef`: read the ref file, strip one trailing newline,
parse the hex digest.  `none` covers `ErrBranchNotFound` and a parse
failure. -/
def getRef (r : Repo) (ref : Bytes) : Option Hash :=
  match r.refs.lookup ref with
  | none => none
  | some data =>
    let s := if data.getLast? = some '\n' then data.dropLast else data
    parseHash s

/-- `Repository.SetRef`: write `<hex>\n` to the ref file. -/
def setRef (r : Repo) (ref : Bytes) (h : Hash) : Repo :=
  { r with refs := setAssoc r.refs ref (hashString h ++ ['\n']) }

/-- `Repository.GetCurrentBranch`: HEAD must be symbolic. -/
def getCurrentBranch (r : Repo) : Option Bytes :=
  let ref := getHEAD r
  if ref.length > 11 ∧ ref.take 11 = "refs/heads/".toList then
    some (ref.drop 11)
  else none

/-- `Repository.GetCurrentCommit`: resolve a symbolic HEAD through the
ref store, or parse a detached digest. -/
def getCurrentCommit (r : Repo) : Option Hash :=
  let ref := getHEAD r
  if ref.length > 11 ∧ ref.take 11 = "refs/heads/".toList then
    getRef r ref
  else parseHash ref

/-- `merge.IsMergeInProgress`: the `MERGE_STATE` file exists. -/
def isMergeInProgress (r : Repo) : Bool :=
  r.mergeState.isSome

/-- The per-entry body of `Checkout`: write a blob entry into the
working tree (non-blob entries are skipped; a missing object is an
error).  The permission bits come from `mode & 0o777`. -/
def checkoutStep (acc : Repo) (entry : TreeEntry) : Option Repo :=
  match storeGet acc.store entry.hash with
  | none => none
  | some obj =>
    if ¬(obj.type = .blob) then some acc
    else
      some { acc with workdir := (setAssoc acc.workdir entry.name
        { data := obj.data, exec := decide (entry.mode.land 0o111 ≠ 0) }) }

/-- `Repository.Checkout`: write every blob entry of the commit's tree
into the working tree. -/
def checkout (r : Repo) (commitHash : Hash) : Option Repo :=
  match getCommitM r.store commitHash with
  | none => none
  | some commit =>
    match getTreeM r.store commit.tree with
    | none => none
    | some tree => tree.entries.foldlM checkoutStep r

/-! ## Snapshot creation (`Save`, `internal/repository`) -/

/-- Author identity and clock, resolved outside the core (environment
variables and `time.Now`); passed as explicit inputs. -/
structure AuthorInfo where
  author : Bytes
  email : Bytes
  timestamp : Int
deriving Repr

/-- `listAllFiles`: every working-tree path (the `.asl` metadata
directory is outside the modelled working tree). -/
def listAllFiles (r : Repo) : List Bytes :=
  r.workdir.map (·.1)

/-- `buildTree`: read every file, store a blob, and emit a
`(mode, path, blob-digest)` entry; the file mode is 0o100755 when any
execute bit is set, else 0o100644.  The Go fan-out collects entries in
goroutine-completion order; the model uses input order (none of the
stated theorems depends on entry order). -/
def buildTreeStep (H : Bytes → Hash) (acc : List TreeEntry × Repo)
    (file : Bytes) : Option (List TreeEntry × Repo) :=
  match acc.2.workdir.lookup file with
  | none => none
  | some wf =>
    let pb := putBlob H acc.2.store wf.data
    let mode := if wf.exec then 0o100755 else 0o100644
    some (acc.1 ++ [⟨mode, file, pb.1⟩], { acc.2 with store := pb.2 })

def buildTree (H : Bytes → Hash) (r : Repo) (files : List Bytes) :
    Option (Tree × Repo) :=
  match files.foldlM (buildTreeStep H) ([], r) with
  | none => none
  | some (entries, rr) => some (⟨entries⟩, rr)

/-- `Repository.Save`: reject an empty message, enumerate the files,
build and store the tree, take the current commit (when one exists) as
the sole parent, store the commit and advance the current branch ref.
No merge-in-progress check appears in the source. -/
def save (H : Bytes → Hash) (r : Repo) (files : List Bytes) (message : Bytes)
    (who : AuthorInfo) : Option (Hash × Repo) :=
  if message = [] then none
  else
    let files1 := if files = [] then listAllFiles r else files
    match buildTree H r files1 with
    | none => none
    | some (tree, r1) =>
      let pt := putTree H r1.store tree
      let r2 := { r1 with store := pt.2 }
      let parentHash := (getCurrentCommit r2).getD zeroHash
      let parents := if hashIsZero parentHash then [] else [parentHash]
      let commit : CommitM :=
        { tree := pt.1, parents := parents, author := who.author,
          email := who.email, timestamp := who.timestamp, message := message }
      let pc := putCommit H r2.store commit
      let r3 := { r2 with store := pc.2 }
      match getCurrentBranch r3 with
      | none => none
      | some branch =>
        some (pc.1, setRef r3 ("refs/heads/".toList ++ branch) pc.1)

/-! ## The merge driver (`internal/repository/merge.go`) -/

/-- `repository.MergeOptions`. -/
structure MergeOptions where
  noFF : Bool
  ffOnly : Bool
  strategy : Bytes
deriving Repr

/-- The default options (`repository.MergeOptions{}`). -/
def defaultMergeOptions : MergeOptions :=
  { noFF := false, ffOnly := false, strategy := [] }

/-- `repository.MergeResult`. -/
structure MergeResultR where
  fastForward : Bool
  conflicts : Bool
  mergeCommit : Option Hash
  message : Bytes
  autoMerged : List Bytes
  conflicted : List Bytes
deriving Repr

/-- `getCommitTree`: commit digest to its tree. -/
def getCommitTree (r : Repo) (commitHash : Hash) : Option Tree :=
  match getCommitM r.store commitHash with
  | none => none
  | some c => getTreeM r.store c.tree

/-- `buildFileMap`: filename to blob digest (later duplicate entries
overwrite earlier ones, as in a Go map). -/
def buildFileMap (t : Tree) : List (Bytes × Hash) :=
  t.entries.foldl (fun m e => setAssoc m e.name e.hash) []

/-- First-occurrence deduplication (the union of the three key sets;
Go iterates its map in unspecified order, the model in first-seen
order — no stated theorem depends on it). -/
def dedupKeys (l : List Bytes) : List Bytes :=
  l.foldl (fun acc k => if k ∈ acc then acc else acc ++ [k]) []

/-- The merge commit record built by both `createMergeCommit` and
`ContinueMerge`: parents `[ourCommit, theirCommit]` in that order and
the message `Merge branch '<branch>'`. -/
def mkMergeCommit (theirBranch : Bytes) (ourCommit theirCommit : Hash)
    (treeHash : Hash) (who : AuthorInfo) : CommitM :=
  { tree := treeHash, parents := [ourCommit, theirCommit],
    author := who.author, email := who.email, timestamp := who.timestamp,
    message := "Merge branch '".toList ++ theirBranch ++ "'".toList }

/-- `createMergeCommit`: build and store the tree of merged files
(regular mode), store the two-parent merge commit, advance the current
branch ref. -/
def createMergeCommit (H : Bytes → Hash) (r : Repo) (theirBranch : Bytes)
    (ourCommit theirCommit : Hash) (files : List (Bytes × Hash))
    (who : AuthorInfo) : Option (Hash × Repo) :=
  let tree : Tree := ⟨files.map (fun p => ⟨0o100644, p.1, p.2⟩)⟩
  let pt := putTree H r.store tree
  let commit := mkMergeCommit theirBranch ourCommit theirCommit pt.1 who
  let pc := putCommit H pt.2 commit
  let r2 := { r with store := pc.2 }
  match getCurrentBranch r2 with
  | none => none
  | some branch =>
    some (pc.1, setRef r2 ("refs/heads/".toList ++ branch) pc.1)

/-- `mergeFileContent`: fetch the three blobs and run the content-level
three-way merge. -/
def mergeFileContent (r : Repo) (filename : Bytes)
    (baseHash ourHash theirHash : Hash) : Option ContentMergeResult :=
  match storeGet r.store baseHash, storeGet r.store ourHash,
        storeGet r.store theirHash with
  | some baseObj, some ourObj, some theirObj =>
    some (threeWayMerge baseObj.data ourObj.data theirObj.data filename)
  | _, _, _ => none

/-- `writeConflictMarkers` as it stands in the source: a stub that
returns `nil` without touching any file ("For now, just write a simple
conflict marker / TODO: Implement proper conflict marker
generation"). -/
def writeConflictMarkers (r : Repo) (_conflicts : List ConflictInfo)
    (_base _ours _theirs : Hash) (_ourBranch _theirBranch : Bytes) :
    Option Repo :=
  some r

/-- Accumulator of the per-file loop of `doThreeWayMerge`. -/
structure MergeLoopAcc where
  conflicts : List ConflictInfo
  autoMerged : List Bytes
  mergedFiles : List (Bytes × Hash)
  repo : Repo
deriving Repr

/-- The per-file body of `doThreeWayMerge`: the presence/equality
classification chain of `merge.go` lines 140–233. -/
def mergeOneFile (H : Bytes → Hash) (acc : MergeLoopAcc) (filename : Bytes)
    (baseFiles ourFiles theirFiles : List (Bytes × Hash)) :
    Option MergeLoopAcc :=
  let baseE := baseFiles.lookup filename
  let ourE := ourFiles.lookup filename
  let theirE := theirFiles.lookup filename
  match baseE, ourE, theirE with
  | none, some ourHash, none =>
    some { acc with mergedFiles := setAssoc acc.mergedFiles filename ourHash,
                    autoMerged := acc.autoMerged ++ [filename] }
  | none, none, some theirHash =>
    some { acc with mergedFiles := setAssoc acc.mergedFiles filename theirHash,
                    autoMerged := acc.autoMerged ++ [filename] }
  | none, some ourHash, some theirHash =>
    if ourHash = theirHash then
      some { acc with mergedFiles := setAssoc acc.mergedFiles filename ourHash,
                      autoMerged := acc.autoMerged ++ [filename] }
    else
      some { acc with conflicts := acc.conflicts ++
        [⟨filename, "add-add".toList, false⟩] }
  | some _, none, none => some acc
  | some baseHash, none, some theirHash =>
    if baseHash = theirHash then some acc
    else
      some { acc with conflicts := acc.conflicts ++
        [⟨filename, "delete-modify".toList, false⟩] }
  | some baseHash, some ourHash, none =>
    if baseHash = ourHash then some acc
    else
      some { acc with conflicts := acc.conflicts ++
        [⟨filename, "modify-delete".toList, false⟩] }
  | some baseHash, some ourHash, some theirHash =>
    if ourHash = theirHash then
      some { acc with mergedFiles := setAssoc acc.mergedFiles filename ourHash,
                      autoMerged := acc.autoMerged ++ [filename] }
    else if baseHash = ourHash then
      some { acc with mergedFiles := setAssoc acc.mergedFiles filename theirHash,
                      autoMerged := acc.autoMerged ++ [filename] }
    else if baseHash = theirHash then
      some { acc with mergedFiles := setAssoc acc.mergedFiles filename ourHash,
                      autoMerged := acc.autoMerged ++ [filename] }
    else
      match mergeFileContent acc.repo filename baseHash ourHash theirHash with
      | none => none
      | some result =>
        if result.hasConflict then
          some { acc with conflicts := acc.conflicts ++
            [⟨filename, "content".toList, false⟩] }
        else
          let pb := putBlob H acc.repo.store result.content
          some { acc with
            mergedFiles := setAssoc acc.mergedFiles filename pb.1,
            autoMerged := acc.autoMerged ++ [filename],
            repo := { acc.repo with store := pb.2 } }
  | none, none, none => some acc

/-- `doThreeWayMerge`: resolve the three trees to file maps, classify
every path in their union, then either persist the merge state (and
call the conflict-marker writer) or create the merge commit and check
it out. -/
def doThreeWayMerge (H : Bytes → Hash) (r : Repo)
    (base ours theirs : Hash) (theirBranch : Bytes) (opts : MergeOptions)
    (who : AuthorInfo) : Option (MergeResultR × Repo) :=
  match getCommitTree r base, getCommitTree r ours, getCommitTree r theirs with
  | some baseTree, some ourTree, some theirTree =>
    let baseFiles := buildFileMap baseTree
    let ourFiles := buildFileMap ourTree
    let theirFiles := buildFileMap theirTree
    let allFiles := dedupKeys
      (baseFiles.map (·.1) ++ ourFiles.map (·.1) ++ theirFiles.map (·.1))
    match allFiles.foldlM
        (fun acc f => mergeOneFile H acc f baseFiles ourFiles theirFiles)
        (⟨[], [], [], r⟩ : MergeLoopAcc) with
    | none => none
    | some acc =>
      if acc.conflicts.length > 0 then
        match getCurrentBranch acc.repo with
        | none => none
        | some currentBranch =>
          let state : MergeStateM :=
            { branch := theirBranch, baseCommit := hashString base,
              ourCommit := hashString ours, theirCommit := hashString theirs,
              strategy := opts.strategy, conflicts := acc.conflicts,
              resolved := [], autoMerged := acc.autoMerged }
          let r1 := { acc.repo with mergeState := some state }
          match writeConflictMarkers r1 acc.conflicts base ours theirs
              currentBranch theirBranch with
          | none => none
          | some r2 =>
            some ({ fastForward := false, conflicts := true,
                    mergeCommit := none,
                    message := "Merge has conflicts".toList,
                    autoMerged := acc.autoMerged,
                    conflicted := acc.conflicts.map (·.path) }, r2)
      else
        match createMergeCommit H acc.repo theirBranch ours theirs
            acc.mergedFiles who with
        | none => none
        | some (mergeCommit, r1) =>
          match checkout r1 mergeCommit with
          | none => none
          | some r2 =>
            some ({ fastForward := false, conflicts := false,
                    mergeCommit := some mergeCommit,
                    message := "Merged".toList,
                    autoMerged := acc.autoMerged, conflicted := [] }, r2)
  | _, _, _ => none

/-- `doFastForward`: advance the current branch ref to the target and
check the target out; no commit object is created. -/
def doFastForward (r : Repo) (target : Hash) (branch : Bytes) :
    Option (MergeResultR × Repo) :=
  match getCurrentBranch r with
  | none => none
  | some currentBranch =>
    let r1 := setRef r ("refs/heads/".toList ++ currentBranch) target
    match checkout r1 target with
    | none => none
    | some r2 =>
      some ({ fastForward := true, conflicts := false,
              mergeCommit := some target,
              message := ("Fast-forward to ".toList ++ branch),
              autoMerged := [], conflicted := [] }, r2)

/-- `Repository.Merge`: refuse when a merge is already in progress,
resolve both tips, compute the merge base, test fast-forward, honour
`FFOnly`/`NoFF`, and dispatch to the fast-forward or three-way path. -/
def mergeBranch (H : Bytes → Hash) (r : Repo) (branch : Bytes)
    (opts : MergeOptions) (who : AuthorInfo) : Option (MergeResultR × Repo) :=
  if isMergeInProgress r then none
  else
    match getRef r ("refs/heads/".toList ++ branch) with
    | none => none
    | some theirCommit =>
      match getCurrentCommit r with
      | none => none
      | some ourCommit =>
        match findLCA r.store ourCommit theirCommit with
        | .found baseCommit =>
          match canFastForward r.store ourCommit theirCommit with
          | none => none
          | some canFF =>
            if opts.ffOnly ∧ ¬canFF then none
            else if canFF ∧ ¬opts.noFF then doFastForward r theirCommit branch
            else doThreeWayMerge H r baseCommit ourCommit theirCommit branch
              opts who
        | _ => none

/-- `Repository.AbortMerge`: load the state, check out `our_commit`,
clear the state. -/
def abortMerge (r : Repo) : Option Repo :=
  match r.mergeState with
  | none => none
  | some state =>
    match parseHash state.ourCommit with
    | none => none
    | some ourCommit =>
      match checkout r ourCommit with
      | none => none
      | some r1 => some { r1 with mergeState := none }

/-- `Repository.ContinueMerge`: load the state, require every conflict
resolved, rebuild a tree from the working directory, create the
two-parent merge commit, advance the branch, clear the state. -/
def continueMerge (H : Bytes → Hash) (r : Repo) (who : AuthorInfo) :
    Option Repo :=
  match r.mergeState with
  | none => none
  | some state =>
    if ¬validateResolved state then none
    else
      match buildTree H r (listAllFiles r) with
      | none => none
      | some (tree, r1) =>
        let pt := putTree H r1.store tree
        let r2 := { r1 with store := pt.2 }
        match parseHash state.ourCommit, parseHash state.theirCommit with
        | some ourCommit, some theirCommit =>
          let commit := mkMergeCommit state.branch ourCommit theirCommit
            pt.1 who
          let pc := putCommit H r2.store commit
          let r3 := { r2 with store := pc.2 }
          match getCurrentBranch r3 with
          | none => none
          | some branch =>
            let r4 := setRef r3 ("refs/heads/".toList ++ branch) pc.1
            some { r4 with mergeState := none }
        | _, _ => none

/-! ## Push-pack traversal (`internal/transfer/transfer.go`) -/

/-- Result of `transfer.CalculatePushPack`: the ordered object list, a
fatal missing-object error (`local object missing <hash>`), a decode
error, the `DecodeTree` runtime panic, or fuel exhaustion (a modelling
artefact only). -/
inductive PushResult where
  | ok (objs : List Hash)
  | errMissing (h : Hash)
  | errDecode
  | panicked
  | fuelOut
deriving DecidableEq, Repr

/-- The BFS loop of `CalculatePushPack`: pop, skip visited, stop at the
`have` set without emitting or descending, report a missing local
object as fatal, else emit and enqueue the children (commit: tree then
parents; tree: entry digests; blob: none). -/
def pushLoop (st : Store) (haveSet : List Hash) :
    Nat → List Hash → List Hash → List Hash → PushResult
  | 0, [], _, result => .ok result
  | 0, _ :: _, _, _ => .fuelOut
  | _ + 1, [], _, result => .ok result
  | fuel + 1, current :: queue, visited, result =>
    if current ∈ visited then pushLoop st haveSet fuel queue visited result
    else if current ∈ haveSet then pushLoop st haveSet fuel queue visited result
    else
      match storeGet st current with
      | none => .errMissing current
      | some obj =>
        let result1 := result ++ [current]
        let visited1 := visited ++ [current]
        match obj.type with
        | .commit =>
          match decodeCommitM obj.data with
          | none => .errDecode
          | some c =>
            pushLoop st haveSet fuel (queue ++ c.tree :: c.parents) visited1 result1
        | .tree =>
          match decodeTree obj.data with
          | .ok t =>
            pushLoop st haveSet fuel (queue ++ t.entries.map (·.hash)) visited1
              result1
          | .err => .errDecode
          | .panic => .panicked
        | .blob => pushLoop st haveSet fuel queue visited1 result1

/-- `transfer.CalculatePushPack`. -/
def calculatePushPack (st : Store) (localTips remoteTips : List Hash) :
    PushResult :=
  pushLoop st remoteTips (storeFuel st localTips.length) localTips [] []

/-- The digests `CalculatePushPack` enqueues as the children of a
stored object (`none` when the object fails to decode; a panicking
tree decode also maps to `none` here — the loop distinguishes them
only in which error it reports). -/
def objChildren (o : GoObj) : Option (List Hash) :=
  match o.type with
  | .commit =>
    match decodeCommitM o.data with
    | none => none
    | some c => some (c.tree :: c.parents)
  | .tree =>
    match decodeTree o.data with
    | .ok t => some (t.entries.map (·.hash))
    | _ => none
  | .blob => some []

/-- Reachability from the local tips through decodable store objects,
stopping at (and never passing through) a remote-have node: the nodes
the push pack must contain. -/
inductive Reach (st : Store) (haveSet tips : List Hash) : Hash → Prop
  | tip (h : Hash) : h ∈ tips → ¬(h ∈ haveSet) → Reach st haveSet tips h
  | child (h c : Hash) (obj : GoObj) (cs : List Hash) :
      Reach st haveSet tips h → storeGet st h = some obj →
      objChildren obj = some cs → c ∈ cs → ¬(c ∈ haveSet) →
      Reach st haveSet tips c

/-! ## Ref-file and merge-state writes as filesystem operation traces

`SetRef` and `SaveMergeState` differ in how they replace a file; the
atomicity claim is settled over the operation sequences the two
functions issue and a crash model for them. -/

/-- One filesystem call issued by the repository layer. -/
inductive FsOp where
  | mkdirAll (dir : Bytes)
  | writeFile (path : Bytes) (content : Bytes)
  | rename (src dst : Bytes)
deriving DecidableEq, Repr

/-- `filepath.Dir`, restricted to what the traces need: everything up
to the last separator (`"."` when there is none). -/
def dirOf (p : Bytes) : Bytes :=
  if p.contains '/' then (p.reverse.dropWhile (· ≠ '/')).reverse.dropLast
  else ".".toList

/-- The calls issued by `Repository.SetRef` (`merge.go` lines 650–661):
`os.MkdirAll` on the parent directory, then ONE direct `os.WriteFile`
of `<hex>\n` onto the ref path — no temporary file, no rename. -/
def setRefTrace (ref : Bytes) (h : Hash) : List FsOp :=
  [.mkdirAll (dirOf ref), .writeFile ref (hashString h ++ ['\n'])]

/-- The path of the merge-state file. -/
def mergeStatePath : Bytes := ".asl/MERGE_STATE".toList

/-- The calls issued by `merge.SaveMergeState`: write the JSON to
`MERGE_STATE.tmp`, then atomically rename it over `MERGE_STATE`. -/
def saveMergeStateTrace (data : Bytes) : List FsOp :=
  [.writeFile (mergeStatePath ++ ".tmp".toList) data,
   .rename (mergeStatePath ++ ".tmp".toList) mergeStatePath]

/-- A flat filesystem: path to contents. -/
abbrev FileSys := List (Bytes × Bytes)

/-- Complete effect of one call. -/
def applyFsOp (fs : FileSys) : FsOp → FileSys
  | .mkdirAll _ => fs
  | .writeFile p c => setAssoc fs p c
  | .rename s d =>
    match fs.lookup s with
    | none => fs
    | some c => setAssoc (fs.filter (fun q => ¬(q.1 = s))) d c

/-- All filesystem states reachable when the trace may be interrupted
at any point: before each call, mid-`writeFile` (the file truncated to
any prefix of the new contents — `os.WriteFile` truncates, then
writes), after an atomic `rename` either not at all or fully, and at
normal completion. -/
def crashStates (fs : FileSys) : List FsOp → List FileSys
  | [] => [fs]
  | op :: rest =>
    (fs ::
      match op with
      | .writeFile p c =>
        (List.range (c.length + 1)).map (fun n => setAssoc fs p (c.take n))
      | _ => []) ++
    crashStates (applyFsOp fs op) rest

/-! ## The tree-level decision table (`doThreeWayMerge`, C5) -/

/-- The verdict for one path of the tree-level merge. -/
inductive FileMergeAction where
  | keep (h : Hash)
  | dropFile
  | conflict (ctype : Bytes)
  | contentMerge
deriving DecidableEq, Repr

/-- The presence/equality classification chain of
`doThreeWayMerge` (`merge.go` lines 140–233), with the side effects
abstracted into a verdict: `keep h` puts `h` into the merged file map,
`dropFile` omits the path, `conflict t` records a conflict of type `t`,
and `contentMerge` invokes the content-level merge.  (A path absent
from all three maps matches no branch of the chain, which drops it.) -/
def classifyFile : Option Hash → Option Hash → Option Hash → FileMergeAction
  | none, some ourHash, none => .keep ourHash
  | none, none, some theirHash => .keep theirHash
  | none, some ourHash, some theirHash =>
    if ourHash = theirHash then .keep ourHash
    else .conflict "add-add".toList
  | some _, none, none => .dropFile
  | some baseHash, none, some theirHash =>
    if baseHash = theirHash then .dropFile
    else .conflict "delete-modify".toList
  | some baseHash, some ourHash, none =>
    if baseHash = ourHash then .dropFile
    else .conflict "modify-delete".toList
  | some baseHash, some ourHash, some theirHash =>
    if ourHash = theirHash then .keep ourHash
    else if baseHash = ourHash then .keep theirHash
    else if baseHash = theirHash then .keep ourHash
    else .contentMerge
  | none, none, none => .dropFile

/-- The spec's 13-row decision table (§4.6), read row by row, keyed on
(presence in base, ours, theirs) and content equality. -/
def specFileAction (b o t : Option Hash) : FileMergeAction :=
  match b, o, t with
  | none, some oh, none => .keep oh
  | none, none, some th => .keep th
  | none, some oh, some th =>
    if oh = th then .keep th    -- "take either"
    else .conflict "add-add".toList
  | some _, none, none => .dropFile
  | some bh, some oh, none =>
    if oh = bh then .dropFile      -- "drop (they deleted)"
    else .conflict "modify-delete".toList
  | some bh, none, some th =>
    if th = bh then .dropFile      -- "drop (we deleted)"
    else .conflict "delete-modify".toList
  | some bh, some oh, some th =>
    if oh = th then .keep oh       -- "take ours"
    else if oh = bh ∧ ¬(th = bh) then .keep th    -- "take theirs"
    else if ¬(oh = bh) ∧ th = bh then .keep oh    -- "take ours"
    else .contentMerge             -- both differ from base: content merge
  | none, none, none => .dropFile

/-! ## Concrete example values used by counterexamples and witnesses -/

/-- A commit whose message carries a trailing space. -/
def exCommitTrailingSpace : Commit :=
  { tree := zeroHash, parent := zeroHash, author := "A".toList,
    email := "e".toList, timestamp := 0, message := "m ".toList }

/-- A 32-byte digest value. -/
def exHashA : Hash := (List.range 32).map (fun i => Char.ofNat (i + 1))

/-- Another 32-byte digest value. -/
def exHashB : Hash := (List.range 32).map (fun i => Char.ofNat (200 + i))

/-- A well-formed commit (the fields of the repository's own
`TestEncodeDecodeCommit`). -/
def exCommitWf : Commit :=
  { tree := exHashA, parent := exHashB, author := "Test Author".toList,
    email := "test@example.com".toList, timestamp := 1234567890,
    message := "Test commit message".toList }

/-- A well-formed tree. -/
def exTreeWf : Tree :=
  ⟨[⟨0o100644, "file1.txt".toList, exHashA⟩,
    ⟨0o100755, "script.sh".toList, exHashB⟩]⟩

/-- A concrete stand-in for the opaque cryptographic hash: 32 bytes of
seeded polynomial checksums.  (Collision-free on every input the
concrete scenarios below store, which the evaluations check.) -/
def exH (data : Bytes) : Hash :=
  (List.range 32).map (fun i =>
    Char.ofNat ((data.foldl
      (fun acc c => (acc * (131 + i) + c.toNat + 1) % 16777213) (i + 1)) % 256))

/-- A concrete author/clock. -/
def exWho : AuthorInfo :=
  { author := "A".toList, email := "e".toList, timestamp := 0 }

/-- A merge state with one unresolved content conflict. -/
def exMergeState : MergeStateM :=
  { branch := "feature".toList, baseCommit := hashString zeroHash,
    ourCommit := hashString exHashA, theirCommit := hashString exHashB,
    strategy := [], conflicts := [⟨"file1.txt".toList, "content".toList, false⟩],
    resolved := [], autoMerged := [] }

/-- A repository on branch `main` with one working-tree file and a
merge in progress. -/
def exRepoMerging : Repo :=
  { head := "ref: refs/heads/main\n".toList,
    refs := [("refs/heads/main".toList, hashString exHashA ++ ['\n'])],
    store := [],
    workdir := [("file1.txt".toList, ⟨"hello".toList, false⟩)],
    mergeState := some exMergeState }

/-! ### A concrete diverged repository whose merge conflicts

Base commit with `file1.txt = "base content"`; `main` changed it to
`"main content"`, `feature` to `"feature content"` (the scenario of the
repository's `TestMerge_WithConflicts`). -/

/-- Blob digest of the base contents. -/
def hBlobBase : Hash := exH (frameObj .blob "base content".toList)

/-- Blob digest of ours (`main`). -/
def hBlobOurs : Hash := exH (frameObj .blob "main content".toList)

/-- Blob digest of theirs (`feature`). -/
def hBlobTheirs : Hash := exH (frameObj .blob "feature content".toList)

/-- The three single-entry trees. -/
def treeBase : Tree := ⟨[⟨0o100644, "file1.txt".toList, hBlobBase⟩]⟩

def treeOurs : Tree := ⟨[⟨0o100644, "file1.txt".toList, hBlobOurs⟩]⟩

def treeTheirs : Tree := ⟨[⟨0o100644, "file1.txt".toList, hBlobTheirs⟩]⟩

def hTreeBase : Hash := exH (frameObj .tree (encodeTree treeBase))

def hTreeOurs : Hash := exH (frameObj .tree (encodeTree treeOurs))

def hTreeTheirs : Hash := exH (frameObj .tree (encodeTree treeTheirs))

/-- The base commit. -/
def commitBase : CommitM :=
  { tree := hTreeBase, parents := [], author := "A".toList,
    email := "e".toList, timestamp := 0, message := "Initial".toList }

def hCommitBase : Hash := exH (frameObj .commit (encodeCommitM commitBase))

/-- Tip of `main`. -/
def commitOurs : CommitM :=
  { tree := hTreeOurs, parents := [hCommitBase], author := "A".toList,
    email := "e".toList, timestamp := 1, message := "Main".toList }

def hCommitOurs : Hash := exH (frameObj .commit (encodeCommitM commitOurs))

/-- Tip of `feature`. -/
def commitTheirs : CommitM :=
  { tree := hTreeTheirs, parents := [hCommitBase], author := "A".toList,
    email := "e".toList, timestamp := 2, message := "Feature".toList }

def hCommitTheirs : Hash := exH (frameObj .commit (encodeCommitM commitTheirs))

/-- The object store holding the whole history. -/
def exStoreConflict : Store :=
  [(hBlobBase, ⟨.blob, "base content".toList⟩),
   (hBlobOurs, ⟨.blob, "main content".toList⟩),
   (hBlobTheirs, ⟨.blob, "feature content".toList⟩),
   (hTreeBase, ⟨.tree, encodeTree treeBase⟩),
   (hTreeOurs, ⟨.tree, encodeTree treeOurs⟩),
   (hTreeTheirs, ⟨.tree, encodeTree treeTheirs⟩),
   (hCommitBase, ⟨.commit, encodeCommitM commitBase⟩),
   (hCommitOurs, ⟨.commit, encodeCommitM commitOurs⟩),
   (hCommitTheirs, ⟨.commit, encodeCommitM commitTheirs⟩)]

/-- The diverged repository, on `main`, clean working tree, no merge in
progress. -/
def exRepoConflict : Repo :=
  { head := "ref: refs/heads/main\n".toList,
    refs := [("refs/heads/main".toList, hashString hCommitOurs ++ ['\n']),
             ("refs/heads/feature".toList, hashString hCommitTheirs ++ ['\n'])],
    store := exStoreConflict,
    workdir := [("file1.txt".toList, ⟨"main content".toList, false⟩)],
    mergeState := none }

/-- The diverged repository's merge state with its one conflict marked
resolved, so `ContinueMerge` may complete the merge. -/
def exResolvedState : MergeStateM :=
  { branch := "feature".toList, baseCommit := hashString hCommitBase,
    ourCommit := hashString hCommitOurs,
    theirCommit := hashString hCommitTheirs,
    strategy := [],
    conflicts := [⟨"file1.txt".toList, "content".toList, true⟩],
    resolved := ["file1.txt".toList], autoMerged := [] }

/-- The diverged repository mid-merge with every conflict resolved. -/
def exRepoResolved : Repo :=
  { head := "ref: refs/heads/main\n".toList,
    refs := [("refs/heads/main".toList, hashString hCommitOurs ++ ['\n']),
             ("refs/heads/feature".toList,
               hashString hCommitTheirs ++ ['\n'])],
    store := exStoreConflict,
    workdir := [("file1.txt".toList, ⟨"main content".toList, false⟩)],
    mergeState := some exResolvedState }

/-- The merge commit record both witness runs build. -/
def exMergeCommit : CommitM :=
  mkMergeCommit "feature".toList hCommitOurs hCommitTheirs hTreeOurs exWho

/-- Its digest under the example hash. -/
def hMergeCommit : Hash := exH (frameObj .commit (encodeCommitM exMergeCommit))

/-- A commit on `feature` whose parent is the tip of `main`, so `main`
can fast-forward to it. -/
def commitFeat : CommitM :=
  { tree := hTreeTheirs, parents := [hCommitOurs], author := "A".toList,
    email := "e".toList, timestamp := 3, message := "Feat".toList }

/-- Its digest. -/
def hCommitFeat : Hash := exH (frameObj .commit (encodeCommitM commitFeat))

/-- The store extended with the fast-forwardable commit. -/
def exStoreFF : Store :=
  exStoreConflict ++ [(hCommitFeat, ⟨.commit, encodeCommitM commitFeat⟩)]

/-- A repository on `main` whose `feature` tip descends from `main`'s
tip. -/
def exRepoFF : Repo :=
  { head := "ref: refs/heads/main\n".toList,
    refs := [("refs/heads/main".toList, hashString hCommitOurs ++ ['\n']),
             ("refs/heads/feature".toList,
               hashString hCommitFeat ++ ['\n'])],
    store := exStoreFF,
    workdir := [("file1.txt".toList, ⟨"main content".toList, false⟩)],
    mergeState := none }

/-! # Theorems

First a library of facts about the string, hex and digit codecs; then
the claim theorems. -/

theorem splitOnChar_ne_nil (sep : Char) (s : Bytes) : splitOnChar sep s ≠ [] := by
  cases s with
  | nil => simp [splitOnChar]
  | cons c rest =>
    simp only [splitOnChar]
    by_cases h : c = sep
    · simp [h]
    · simp only [h, if_false]
      cases hr : splitOnChar sep rest <;> simp

theorem splitOnChar_cons_sep (sep : Char) (rest : Bytes) :
    splitOnChar sep (sep :: rest) = [] :: splitOnChar sep rest := by
  simp [splitOnChar]

theorem splitOnChar_append_sep (sep : Char) (a rest : Bytes)
    (ha : sep ∉ a) : splitOnChar sep (a ++ sep :: rest) =
      a :: splitOnChar sep rest := by
  induction a with
  | nil => simp [splitOnChar]
  | cons c a ih =>
    have hc : ¬(c = sep) := fun h => ha (h ▸ List.mem_cons_self c a)
    have ha' : sep ∉ a := fun h => ha (List.mem_cons_of_mem c h)
    simp only [List.cons_append, splitOnChar, hc, if_false, List.append_eq]
    rw [ih ha']

theorem splitOnChar_no_sep (sep : Char) (a : Bytes) (ha : sep ∉ a) :
    splitOnChar sep a = [a] := by
  induction a with
  | nil => rfl
  | cons c a ih =>
    have hc : ¬(c = sep) := fun h => ha (h ▸ List.mem_cons_self c a)
    have ha' : sep ∉ a := fun h => ha (List.mem_cons_of_mem c h)
    simp only [splitOnChar, hc, if_false, ih ha']

theorem joinChar_splitOnChar (sep : Char) (s : Bytes) :
    joinChar sep (splitOnChar sep s) = s := by
  induction s with
  | nil => rfl
  | cons c rest ih =>
    simp only [splitOnChar]
    by_cases h : c = sep
    · subst h
      simp only [if_true]
      have hne := splitOnChar_ne_nil c rest
      cases hr : splitOnChar c rest with
      | nil => exact absurd hr hne
      | cons x xs =>
        rw [hr] at ih
        simp [joinChar, ih]
    · simp only [h, if_false]
      have hne := splitOnChar_ne_nil sep rest
      cases hr : splitOnChar sep rest with
      | nil => exact absurd hr hne
      | cons x xs =>
        rw [hr] at ih
        cases xs with
        | nil => simp_all [joinChar]
        | cons y ys => simp_all [joinChar]

theorem splitOnChar_append_last (sep : Char) (s : Bytes) :
    splitOnChar sep (s ++ [sep]) = splitOnChar sep s ++ [[]] := by
  induction s with
  | nil => simp [splitOnChar]
  | cons c rest ih =>
    by_cases h : c = sep
    · subst h
      rw [List.cons_append, splitOnChar_cons_sep, splitOnChar_cons_sep, ih]
      simp
    · simp only [List.cons_append, splitOnChar, h, if_false, List.append_eq]
      rw [ih]
      have hne := splitOnChar_ne_nil sep rest
      cases hr : splitOnChar sep rest with
      | nil => exact absurd hr hne
      | cons x xs => simp

theorem length_splitOnChar (sep : Char) (s : Bytes) :
    (splitOnChar sep s).length = s.count sep + 1 := by
  induction s with
  | nil => simp [splitOnChar]
  | cons c rest ih =>
    simp only [splitOnChar]
    by_cases h : c = sep
    · subst h
      simp [List.count_cons, ih]
    · simp only [h, if_false]
      have hne := splitOnChar_ne_nil sep rest
      cases hr : splitOnChar sep rest with
      | nil => exact absurd hr hne
      | cons x xs =>
        rw [hr] at ih
        simp only [List.length_cons] at ih
        have hcnt : (c :: rest).count sep = rest.count sep := by
          simp [List.count_cons, h]
        simp [hcnt, ih]

theorem joinChar_append_empty (sep : Char) (xs : List Bytes) (h : xs ≠ []) :
    joinChar sep (xs ++ [[]]) = joinChar sep xs ++ [sep] := by
  induction xs with
  | nil => exact absurd rfl h
  | cons x xs ih =>
    cases xs with
    | nil => simp [joinChar]
    | cons y ys =>
      have h2 := ih (by simp)
      simp only [List.cons_append] at h2 ⊢
      show x ++ sep :: joinChar sep (y :: (ys ++ [[]])) =
        (x ++ sep :: joinChar sep (y :: ys)) ++ [sep]
      rw [h2]
      simp

theorem takeWhile_append_stop (p : Char → Bool) (a : Bytes) (c : Char)
    (b : Bytes) (ha : ∀ x ∈ a, p x = true) (hc : p c = false) :
    (a ++ c :: b).takeWhile p = a := by
  induction a with
  | nil => simp [List.takeWhile, hc]
  | cons x xs ih =>
    have hx : p x = true := ha x (List.mem_cons_self x xs)
    have ha' : ∀ y ∈ xs, p y = true := fun y hy => ha y (List.mem_cons_of_mem x hy)
    simp [List.takeWhile, hx, ih ha']

theorem splitN2_exact (sep : Char) (a b : Bytes) (ha : sep ∉ a) :
    splitN2 sep (a ++ sep :: b) = [a, b] := by
  unfold splitN2
  have htw : (a ++ sep :: b).takeWhile (· ≠ sep) = a := by
    apply takeWhile_append_stop
    · intro x hx
      simp only [decide_eq_true_eq]
      exact fun h => ha (h ▸ hx)
    · simp
  rw [htw]
  have hlen : a.length ≠ (a ++ sep :: b).length := by
    simp only [List.length_append, List.length_cons]
    omega
  simp only [hlen, if_false]
  have hdrop : (a ++ sep :: b).drop (a.length + 1) = b := by
    rw [List.drop_append_eq_append_drop]
    simp
  rw [hdrop]

theorem findIdx?_first (p : Char → Bool) (a : Bytes) (c : Char) (b : Bytes)
    (ha : ∀ x ∈ a, p x = false) (hc : p c = true) :
    List.findIdx? p (a ++ c :: b) = some a.length := by
  induction a with
  | nil => simp [List.findIdx?_cons, hc]
  | cons x xs ih =>
    have hx : p x = false := ha x (List.mem_cons_self x xs)
    have ha' : ∀ y ∈ xs, p y = false := fun y hy => ha y (List.mem_cons_of_mem x hy)
    simp [List.findIdx?_cons, hx, ih ha', Option.map_some]

theorem dropWhile_append_of_ne_nil (p : Char → Bool) (a b : Bytes)
    (h : a.dropWhile p ≠ []) :
    (a ++ b).dropWhile p = a.dropWhile p ++ b := by
  induction a with
  | nil => exact absurd rfl h
  | cons x xs ih =>
    by_cases hx : p x = true
    · have h' : xs.dropWhile p ≠ [] := by
        simpa [List.dropWhile_cons, hx] using h
      simp [List.dropWhile_cons, hx, ih h']
    · have hx' : p x = false := by simpa using hx
      simp [List.dropWhile_cons, hx']

theorem dropWhile_append_of_nil (p : Char → Bool) (a b : Bytes)
    (h : a.dropWhile p = []) :
    (a ++ b).dropWhile p = b.dropWhile p := by
  induction a with
  | nil => rfl
  | cons x xs ih =>
    by_cases hx : p x = true
    · have h' : xs.dropWhile p = [] := by
        simpa [List.dropWhile_cons, hx] using h
      simpa [List.dropWhile_cons, hx] using ih h'
    · simp [List.dropWhile_cons, hx] at h

theorem trimGo_append_space (a : Bytes) (c : Char) (hc : goIsSpace c = true) :
    trimGo (a ++ [c]) = trimGo a := by
  unfold trimGo
  by_cases h : a.dropWhile goIsSpace = []
  · rw [h, dropWhile_append_of_nil _ _ _ h]
    simp [List.dropWhile, hc]
  · rw [dropWhile_append_of_ne_nil _ _ _ h]
    rw [List.reverse_append]
    simp only [List.reverse_cons, List.reverse_nil, List.nil_append,
      List.singleton_append, List.dropWhile_cons, hc, if_true]

theorem hexVal?_hexDigit (d : Nat) (h : d < 16) :
    hexVal? (hexDigit d) = some d := by
  interval_cases d <;> decide

theorem char_ofNat_div_mod (c : Char) :
    Char.ofNat (16 * (c.toNat / 16) + c.toNat % 16) = c := by
  rw [Nat.div_add_mod c.toNat 16]
  exact Char.ofNat_toNat c

theorem bytesToHex_cons (c : Char) (rest : Bytes) :
    bytesToHex (c :: rest) =
      hexDigit (c.toNat / 16) :: hexDigit (c.toNat % 16) :: bytesToHex rest := by
  simp [bytesToHex]

theorem hexToBytes?_bytesToHex (s : Bytes) (h : ∀ c ∈ s, c.toNat < 256) :
    hexToBytes? (bytesToHex s) = some s := by
  induction s with
  | nil => rfl
  | cons c rest ih =>
    have hc : c.toNat < 256 := h c (List.mem_cons_self c rest)
    have hrest : ∀ x ∈ rest, x.toNat < 256 :=
      fun x hx => h x (List.mem_cons_of_mem c hx)
    have hhi : c.toNat / 16 < 16 := by omega
    have hlo : c.toNat % 16 < 16 := Nat.mod_lt _ (by omega)
    rw [bytesToHex_cons]
    simp only [hexToBytes?, hexVal?_hexDigit _ hhi, hexVal?_hexDigit _ hlo,
      ih hrest]
    simp [char_ofNat_div_mod c]

theorem parseHash_hashString (s : Bytes) (hlen : s.length = 32)
    (h : ∀ c ∈ s, c.toNat < 256) : parseHash (hashString s) = some s := by
  unfold parseHash hashString
  rw [hexToBytes?_bytesToHex s h]
  simp [hlen]

theorem digitsVal_append (b : Nat) (xs : List Nat) (d : Nat) :
    digitsVal b (xs ++ [d]) = digitsVal b xs * b + d := by
  unfold digitsVal
  rw [List.foldl_append]
  rfl

theorem natDigitsF_lt (b : Nat) (hb : 2 ≤ b) :
    ∀ fuel n, n < fuel → ∀ d ∈ natDigitsF fuel b n, d < b := by
  intro fuel
  induction fuel with
  | zero => intro n hn; omega
  | succ fuel ih =>
    intro n hn d hd
    simp only [natDigitsF] at hd
    by_cases hnb : n < b ∨ b ≤ 1
    · rcases hnb with hnb | hnb
      · simp only [hnb, true_or, if_true, List.mem_singleton] at hd
        omega
      · omega
    · simp only [hnb, if_false] at hd
      rcases List.mem_append.mp hd with hd | hd
      · have hdiv : n / b < fuel := by
          have h1 : n / b < n := Nat.div_lt_self (by omega) (by omega)
          omega
        exact ih (n / b) hdiv d hd
      · simp only [List.mem_singleton] at hd
        subst hd
        exact Nat.mod_lt _ (by omega)

theorem natDigitsF_val (b : Nat) (hb : 2 ≤ b) :
    ∀ fuel n, n < fuel → digitsVal b (natDigitsF fuel b n) = n := by
  intro fuel
  induction fuel with
  | zero => intro n hn; omega
  | succ fuel ih =>
    intro n hn
    simp only [natDigitsF]
    by_cases hnb : n < b ∨ b ≤ 1
    · have hnb' : n < b := by omega
      simp only [hnb, if_true]
      simp [digitsVal]
    · simp only [hnb, if_false]
      have hdiv : n / b < fuel := by
        have h1 : n / b < n := Nat.div_lt_self (by omega) (by omega)
        omega
      rw [digitsVal_append, ih (n / b) hdiv, Nat.mul_comm]
      exact Nat.div_add_mod n b

theorem digitVal_digitChar (d : Nat) (h : d < 10) :
    digitVal (digitChar d) = d := by
  interval_cases d <;> decide

theorem digitChar_toNat (d : Nat) (h : d < 10) :
    (digitChar d).toNat = 48 + d := by
  interval_cases d <;> decide

theorem hexDigit_toNat (d : Nat) (h : d < 16) :
    (hexDigit d).toNat = if d < 10 then 48 + d else 87 + d := by
  interval_cases d <;> decide

theorem natDigitsF_ne_nil (fuel b n : Nat) : natDigitsF fuel b n ≠ [] := by
  cases fuel with
  | zero => simp [natDigitsF]
  | succ fuel =>
    simp only [natDigitsF]
    split <;> simp

theorem foldl_digitVal_digitChar (b : Nat) (ds : List Nat)
    (hds : ∀ d ∈ ds, d < 10) (a : Nat) :
    (ds.map digitChar).foldl (fun a c => a * b + digitVal c) a =
      ds.foldl (fun a d => a * b + d) a := by
  induction ds generalizing a with
  | nil => rfl
  | cons d ds ih =>
    have hd : d < 10 := hds d (List.mem_cons_self d ds)
    have hds' : ∀ x ∈ ds, x < 10 := fun x hx => hds x (List.mem_cons_of_mem d hx)
    simp only [List.map_cons, List.foldl_cons, digitVal_digitChar d hd]
    exact ih hds' _

theorem parseOctal_natToOctal (m : Nat) : parseOctal (natToOctal m) = m := by
  unfold parseOctal natToOctal
  have hds : ∀ d ∈ natDigits 8 m, d < 10 := by
    intro d hd
    have := natDigitsF_lt 8 (by omega) (m + 1) m (by omega) d hd
    omega
  rw [foldl_digitVal_digitChar 8 _ hds 0]
  exact natDigitsF_val 8 (by omega) (m + 1) m (by omega)

theorem parseDecNat_natToDec (m : Nat) : parseDecNat (natToDec m) = m := by
  unfold parseDecNat natToDec
  have hds : ∀ d ∈ natDigits 10 m, d < 10 :=
    natDigitsF_lt 10 (by omega) (m + 1) m (by omega)
  rw [foldl_digitVal_digitChar 10 _ hds 0]
  exact natDigitsF_val 10 (by omega) (m + 1) m (by omega)

theorem natToDec_head_digit (m : Nat) :
    ∃ d, d < 10 ∧ ∃ rest, natToDec m = digitChar d :: rest := by
  unfold natToDec
  have hne : natDigits 10 m ≠ [] := natDigitsF_ne_nil (m + 1) 10 m
  have hds : ∀ d ∈ natDigits 10 m, d < 10 :=
    natDigitsF_lt 10 (by omega) (m + 1) m (by omega)
  cases hd : natDigits 10 m with
  | nil => exact absurd hd hne
  | cons d ds =>
    refine ⟨d, ?_, ds.map digitChar, by simp⟩
    apply hds
    rw [hd]
    exact List.mem_cons_self d ds

theorem parseDecInt_intToDec (i : Int) : parseDecInt (intToDec i) = i := by
  unfold intToDec
  by_cases hneg : i < 0
  · simp only [hneg, if_true, parseDecInt]
    rw [parseDecNat_natToDec]
    omega
  · simp only [hneg, if_false]
    obtain ⟨d, hd, rest, hrest⟩ := natToDec_head_digit i.natAbs
    rw [hrest]
    have hdc : ¬(digitChar d = '-') := by
      intro hh
      have h2 := congrArg Char.toNat hh
      rw [digitChar_toNat d hd, show ('-').toNat = 45 from rfl] at h2
      omega
    simp only [parseDecInt, hdc, if_false]
    rw [← hrest, parseDecNat_natToDec]
    omega

theorem hexDigit_ne_nl_sp (d : Nat) (h : d < 16) :
    ¬(hexDigit d = '\n') ∧ ¬(hexDigit d = ' ') := by
  interval_cases d <;> exact ⟨by decide, by decide⟩

theorem mem_bytesToHex_ne (s : Bytes) (hs : ∀ c ∈ s, c.toNat < 256) :
    ∀ ch ∈ bytesToHex s, ¬(ch = '\n') ∧ ¬(ch = ' ') := by
  intro ch hch
  unfold bytesToHex at hch
  obtain ⟨c, hc, hch⟩ := List.mem_flatMap.mp hch
  have hb := hs c hc
  simp only [List.mem_cons, List.mem_singleton, List.not_mem_nil, or_false] at hch
  rcases hch with hch | hch <;> subst hch
  · exact hexDigit_ne_nl_sp _ (by omega)
  · exact hexDigit_ne_nl_sp _ (Nat.mod_lt _ (by omega))

theorem digitChar_ne_nl_sp (d : Nat) (h : d < 10) :
    ¬(digitChar d = '\n') ∧ ¬(digitChar d = ' ') := by
  interval_cases d <;> exact ⟨by decide, by decide⟩

theorem mem_intToDec_ne (i : Int) :
    ∀ ch ∈ intToDec i, ¬(ch = '\n') ∧ ¬(ch = ' ') := by
  intro ch hch
  have hdig : ∀ m : Nat, ∀ x ∈ natToDec m, ¬(x = '\n') ∧ ¬(x = ' ') := by
    intro m x hx
    unfold natToDec at hx
    obtain ⟨d, hd, hxd⟩ := List.mem_map.mp hx
    have hlt : d < 10 := natDigitsF_lt 10 (by omega) (m + 1) m (by omega) d hd
    subst hxd
    exact digitChar_ne_nl_sp d hlt
  unfold intToDec at hch
  by_cases hneg : i < 0
  · simp only [hneg, if_true, List.mem_cons] at hch
    rcases hch with hch | hch
    · subst hch; exact ⟨by decide, by decide⟩
    · exact hdig _ ch hch
  · simp only [hneg, if_false] at hch
    exact hdig _ ch hch

theorem nl_not_mem_hashString (s : Bytes) (hs : ∀ c ∈ s, c.toNat < 256) :
    '\n' ∉ hashString s := by
  intro h
  exact (mem_bytesToHex_ne s hs '\n' h).1 rfl

theorem sp_not_mem_hashString (s : Bytes) (hs : ∀ c ∈ s, c.toNat < 256) :
    ' ' ∉ hashString s := by
  intro h
  exact (mem_bytesToHex_ne s hs ' ' h).2 rfl

theorem decodeAuthorValue_encode (author email : Bytes) (ts : Int) (c : Commit)
    (ha_lt : '<' ∉ author) (ha_gt : '>' ∉ author)
    (ha_trim : trimGo author = author) (he_gt : '>' ∉ email) :
    decodeAuthorValue
      (author ++ " <".toList ++ email ++ "> ".toList ++ intToDec ts) c =
      some { c with author := author, email := email, timestamp := ts } := by
  have hAV : author ++ " <".toList ++ email ++ "> ".toList ++ intToDec ts =
      author ++ ' ' :: '<' :: (email ++ '>' :: ' ' :: intToDec ts) := by
    simp
  rw [hAV]
  unfold decodeAuthorValue
  have hcount : ((author ++ ' ' :: '<' ::
      (email ++ '>' :: ' ' :: intToDec ts)).count ' ') ≥ 2 := by
    simp only [List.count_append, List.count_cons]
    have h1 : (' ' == ' ') = true := by decide
    have h2 : (('<' : Char) == ' ') = false := by decide
    have h3 : (('>' : Char) == ' ') = false := by decide
    simp [h1, h2, h3]
    omega
  have hlen3 : ¬((splitOnChar ' ' (author ++ ' ' :: '<' ::
      (email ++ '>' :: ' ' :: intToDec ts))).length < 3) := by
    rw [length_splitOnChar]
    omega
  rw [if_neg hlen3]
  have hes : indexOfChar '<' (author ++ ' ' :: '<' ::
      (email ++ '>' :: ' ' :: intToDec ts)) = some (author.length + 1) := by
    unfold indexOfChar
    have : author ++ ' ' :: '<' :: (email ++ '>' :: ' ' :: intToDec ts) =
        (author ++ [' ']) ++ '<' :: (email ++ '>' :: ' ' :: intToDec ts) := by
      simp
    rw [this]
    have := findIdx?_first (· = '<') (author ++ [' ']) '<'
      (email ++ '>' :: ' ' :: intToDec ts)
      (by
        intro x hx
        rcases List.mem_append.mp hx with hx | hx
        · simp only [decide_eq_false_iff_not]
          exact fun hxe => ha_lt (hxe ▸ hx)
        · simp only [List.mem_singleton] at hx
          subst hx; decide)
      (by decide)
    rw [this]
    simp
  have hee : indexOfChar '>' (author ++ ' ' :: '<' ::
      (email ++ '>' :: ' ' :: intToDec ts)) =
      some (author.length + 2 + email.length) := by
    unfold indexOfChar
    have hsh : author ++ ' ' :: '<' :: (email ++ '>' :: ' ' :: intToDec ts) =
        (author ++ ' ' :: '<' :: email) ++ '>' :: (' ' :: intToDec ts) := by
      simp
    rw [hsh]
    have := findIdx?_first (· = '>') (author ++ ' ' :: '<' :: email) '>'
      (' ' :: intToDec ts)
      (by
        intro x hx
        simp only [decide_eq_false_iff_not]
        intro hxe
        subst hxe
        rcases List.mem_append.mp hx with hx | hx
        · exact ha_gt hx
        · rcases hx with _ | ⟨_, hx⟩
          rcases hx with _ | ⟨_, hx⟩
          exact he_gt hx)
      (by decide)
    rw [this]
    simp only [List.length_append, List.length_cons]
    congr 1
    omega
  rw [hes, hee]
  have htake : (author ++ ' ' :: '<' ::
      (email ++ '>' :: ' ' :: intToDec ts)).take (author.length + 1) =
      author ++ [' '] := by
    have hsh : author ++ ' ' :: '<' :: (email ++ '>' :: ' ' :: intToDec ts) =
        (author ++ [' ']) ++ '<' :: (email ++ '>' :: ' ' :: intToDec ts) := by
      simp
    rw [hsh]
    have hl : author.length + 1 = (author ++ [' ']).length := by simp
    rw [hl, List.take_left]
  have hdrop1 : (author ++ ' ' :: '<' ::
      (email ++ '>' :: ' ' :: intToDec ts)).drop (author.length + 1 + 1) =
      email ++ '>' :: ' ' :: intToDec ts := by
    have hsh : author ++ ' ' :: '<' :: (email ++ '>' :: ' ' :: intToDec ts) =
        (author ++ [' ', '<']) ++ (email ++ '>' :: ' ' :: intToDec ts) := by
      simp
    rw [hsh]
    have hl : author.length + 1 + 1 = (author ++ [' ', '<']).length := by simp
    rw [hl, List.drop_left]
  have htake2 : (email ++ '>' :: ' ' :: intToDec ts).take
      (author.length + 2 + email.length - (author.length + 1 + 1)) = email := by
    have hl : author.length + 2 + email.length - (author.length + 1 + 1) =
        email.length := by omega
    rw [hl]
    have := List.take_left email ('>' :: ' ' :: intToDec ts)
    exact this
  have hdrop2 : (author ++ ' ' :: '<' ::
      (email ++ '>' :: ' ' :: intToDec ts)).drop
      (author.length + 2 + email.length + 2) = intToDec ts := by
    have hsh : author ++ ' ' :: '<' :: (email ++ '>' :: ' ' :: intToDec ts) =
        (author ++ ' ' :: '<' :: email ++ ['>', ' ']) ++ intToDec ts := by
      simp
    rw [hsh]
    have hl : author.length + 2 + email.length + 2 =
        (author ++ ' ' :: '<' :: email ++ ['>', ' ']).length := by
      simp
      omega
    rw [hl, List.drop_left]
  dsimp only
  rw [htake, hdrop1, htake2, hdrop2]
  rw [trimGo_append_space author ' ' (by decide), ha_trim,
    parseDecInt_intToDec]

theorem decodeCommitFields_tree_step (value : Bytes) (rest : List Bytes)
    (c : Commit) (hh : Hash) (h : parseHash value = some hh) :
    decodeCommitFields (("tree".toList ++ ' ' :: value) :: rest) c =
      decodeCommitFields rest { c with tree := hh } := by
  have hne : ¬("tree".toList ++ ' ' :: value = []) := by simp
  have hsplit := splitN2_exact ' ' "tree".toList value (by decide)
  simp only [decodeCommitFields, hne, if_false, hsplit]
  simp [h]

theorem decodeCommitFields_parent_step (value : Bytes) (rest : List Bytes)
    (c : Commit) (hh : Hash) (h : parseHash value = some hh) :
    decodeCommitFields (("parent".toList ++ ' ' :: value) :: rest) c =
      decodeCommitFields rest { c with parent := hh } := by
  have hne : ¬("parent".toList ++ ' ' :: value = []) := by simp
  have hsplit := splitN2_exact ' ' "parent".toList value (by decide)
  simp only [decodeCommitFields, hne, if_false, hsplit]
  simp [h]

theorem decodeCommitFields_author_step (value : Bytes) (rest : List Bytes)
    (c c' : Commit) (h : decodeAuthorValue value c = some c') :
    decodeCommitFields (("author".toList ++ ' ' :: value) :: rest) c =
      decodeCommitFields rest c' := by
  have hne : ¬("author".toList ++ ' ' :: value = []) := by simp
  have hsplit := splitN2_exact ' ' "author".toList value (by decide)
  simp only [decodeCommitFields, hne, if_false, hsplit]
  simp [h]

theorem decodeCommitFields_blank_step (rest : List Bytes) (c : Commit) :
    decodeCommitFields ([] :: rest) c = some (c, some rest) := by
  simp [decodeCommitFields]

theorem splitOnChar_encodeCommit (c : Commit) (hz : hashIsZero c.parent = true)
    (ht_b : ∀ ch ∈ c.tree, ch.toNat < 256)
    (ha_nl : '\n' ∉ c.author) (he_nl : '\n' ∉ c.email) :
    splitOnChar '\n' (encodeCommit c) =
      ("tree".toList ++ ' ' :: hashString c.tree) ::
      ("author".toList ++ ' ' :: (c.author ++ " <".toList ++ c.email ++
        "> ".toList ++ intToDec c.timestamp)) ::
      [] :: (splitOnChar '\n' c.message ++ [[]]) := by
  have hdata : encodeCommit c =
      ("tree".toList ++ ' ' :: hashString c.tree) ++ '\n' ::
        (("author".toList ++ ' ' :: (c.author ++ " <".toList ++ c.email ++
          "> ".toList ++ intToDec c.timestamp)) ++ '\n' ::
          ('\n' :: (c.message ++ ['\n']))) := by
    simp only [encodeCommit, hz, if_true]
    simp [List.append_assoc]
  rw [hdata]
  rw [splitOnChar_append_sep _ _ _ (by
    intro hmem
    rcases List.mem_append.mp hmem with hmem | hmem
    · revert hmem; decide
    · rcases hmem with _ | ⟨_, hmem⟩
      exact (mem_bytesToHex_ne c.tree ht_b '\n' hmem).1 rfl)]
  rw [splitOnChar_append_sep _ _ _ (by
    intro hmem
    rcases List.mem_append.mp hmem with hmem | hmem
    · revert hmem; decide
    · rcases hmem with _ | ⟨_, hmem⟩
      rcases List.mem_append.mp hmem with hmem | hmem
      · rcases List.mem_append.mp hmem with hmem | hmem
        · rcases List.mem_append.mp hmem with hmem | hmem
          · rcases List.mem_append.mp hmem with hmem | hmem
            · exact ha_nl hmem
            · revert hmem; decide
          · exact he_nl hmem
        · revert hmem; decide
      · exact (mem_intToDec_ne c.timestamp '\n' hmem).1 rfl)]
  rw [splitOnChar_cons_sep, splitOnChar_append_last]

theorem decodeCommit_encodeCommit_of_wf (c : Commit)
    (ht_len : c.tree.length = 32) (ht_b : ∀ ch ∈ c.tree, ch.toNat < 256)
    (hz : hashIsZero c.parent = true)
    (ha_lt : '<' ∉ c.author) (ha_gt : '>' ∉ c.author) (ha_nl : '\n' ∉ c.author)
    (ha_trim : trimGo c.author = c.author)
    (he_gt : '>' ∉ c.email) (he_nl : '\n' ∉ c.email)
    (hm_trim : trimGo c.message = c.message) :
    decodeCommit (encodeCommit c) = some c := by
  have hlines := splitOnChar_encodeCommit c hz ht_b ha_nl he_nl
  have hmsne := splitOnChar_ne_nil '\n' c.message
  have hmslen : 1 ≤ (splitOnChar '\n' c.message).length :=
    List.length_pos.mpr hmsne
  unfold decodeCommit
  rw [hlines]
  have hlen4 : ¬((("tree".toList ++ ' ' :: hashString c.tree) ::
      ("author".toList ++ ' ' :: (c.author ++ " <".toList ++ c.email ++
        "> ".toList ++ intToDec c.timestamp)) ::
      [] :: (splitOnChar '\n' c.message ++ [[]])).length < 4) := by
    simp only [List.length_cons, List.length_append]
    omega
  rw [if_neg hlen4]
  rw [decodeCommitFields_tree_step _ _ _ c.tree
    (parseHash_hashString c.tree ht_len ht_b)]
  rw [decodeCommitFields_author_step _ _ _
    (Commit.mk c.tree emptyCommit.parent c.author c.email c.timestamp
      emptyCommit.message)
    (decodeAuthorValue_encode c.author c.email c.timestamp _
      ha_lt ha_gt ha_trim he_gt)]
  rw [decodeCommitFields_blank_step]
  have hmsne2 : ¬(splitOnChar '\n' c.message ++ [[]] = []) := by simp
  simp only [hmsne2, if_false]
  rw [joinChar_append_empty _ _ hmsne, joinChar_splitOnChar,
    trimGo_append_space _ '\n' (by decide), hm_trim]
  have hz' : c.parent = zeroHash := by
    simpa [hashIsZero] using hz
  rw [show emptyCommit.parent = zeroHash from rfl, ← hz']

theorem splitOnChar_encodeCommit_parent (c : Commit)
    (hz : hashIsZero c.parent = false)
    (ht_b : ∀ ch ∈ c.tree, ch.toNat < 256)
    (hp_b : ∀ ch ∈ c.parent, ch.toNat < 256)
    (ha_nl : '\n' ∉ c.author) (he_nl : '\n' ∉ c.email) :
    splitOnChar '\n' (encodeCommit c) =
      ("tree".toList ++ ' ' :: hashString c.tree) ::
      ("parent".toList ++ ' ' :: hashString c.parent) ::
      ("author".toList ++ ' ' :: (c.author ++ " <".toList ++ c.email ++
        "> ".toList ++ intToDec c.timestamp)) ::
      [] :: (splitOnChar '\n' c.message ++ [[]]) := by
  have hdata : encodeCommit c =
      ("tree".toList ++ ' ' :: hashString c.tree) ++ '\n' ::
        (("parent".toList ++ ' ' :: hashString c.parent) ++ '\n' ::
          (("author".toList ++ ' ' :: (c.author ++ " <".toList ++ c.email ++
            "> ".toList ++ intToDec c.timestamp)) ++ '\n' ::
            ('\n' :: (c.message ++ ['\n'])))) := by
    simp only [encodeCommit, hz, Bool.false_eq_true, if_false]
    simp [List.append_assoc]
  rw [hdata]
  rw [splitOnChar_append_sep _ _ _ (by
    intro hmem
    rcases List.mem_append.mp hmem with hmem | hmem
    · revert hmem; decide
    · rcases hmem with _ | ⟨_, hmem⟩
      exact (mem_bytesToHex_ne c.tree ht_b '\n' hmem).1 rfl)]
  rw [splitOnChar_append_sep _ _ _ (by
    intro hmem
    rcases List.mem_append.mp hmem with hmem | hmem
    · revert hmem; decide
    · rcases hmem with _ | ⟨_, hmem⟩
      exact (mem_bytesToHex_ne c.parent hp_b '\n' hmem).1 rfl)]
  rw [splitOnChar_append_sep _ _ _ (by
    intro hmem
    rcases List.mem_append.mp hmem with hmem | hmem
    · revert hmem; decide
    · rcases hmem with _ | ⟨_, hmem⟩
      rcases List.mem_append.mp hmem with hmem | hmem
      · rcases List.mem_append.mp hmem with hmem | hmem
        · rcases List.mem_append.mp hmem with hmem | hmem
          · rcases List.mem_append.mp hmem with hmem | hmem
            · exact ha_nl hmem
            · revert hmem; decide
          · exact he_nl hmem
        · revert hmem; decide
      · exact (mem_intToDec_ne c.timestamp '\n' hmem).1 rfl)]
  rw [splitOnChar_cons_sep, splitOnChar_append_last]

theorem decodeCommit_encodeCommit_parent_of_wf (c : Commit)
    (ht_len : c.tree.length = 32) (ht_b : ∀ ch ∈ c.tree, ch.toNat < 256)
    (hz : hashIsZero c.parent = false)
    (hp_len : c.parent.length = 32) (hp_b : ∀ ch ∈ c.parent, ch.toNat < 256)
    (ha_lt : '<' ∉ c.author) (ha_gt : '>' ∉ c.author) (ha_nl : '\n' ∉ c.author)
    (ha_trim : trimGo c.author = c.author)
    (he_gt : '>' ∉ c.email) (he_nl : '\n' ∉ c.email)
    (hm_trim : trimGo c.message = c.message) :
    decodeCommit (encodeCommit c) = some c := by
  have hlines := splitOnChar_encodeCommit_parent c hz ht_b hp_b ha_nl he_nl
  have hmsne := splitOnChar_ne_nil '\n' c.message
  have hmslen : 1 ≤ (splitOnChar '\n' c.message).length :=
    List.length_pos.mpr hmsne
  unfold decodeCommit
  rw [hlines]
  have hlen4 : ¬((("tree".toList ++ ' ' :: hashString c.tree) ::
      ("parent".toList ++ ' ' :: hashString c.parent) ::
      ("author".toList ++ ' ' :: (c.author ++ " <".toList ++ c.email ++
        "> ".toList ++ intToDec c.timestamp)) ::
      [] :: (splitOnChar '\n' c.message ++ [[]])).length < 4) := by
    simp only [List.length_cons, List.length_append]
    omega
  rw [if_neg hlen4]
  rw [decodeCommitFields_tree_step _ _ _ c.tree
    (parseHash_hashString c.tree ht_len ht_b)]
  rw [decodeCommitFields_parent_step _ _ _ c.parent
    (parseHash_hashString c.parent hp_len hp_b)]
  rw [decodeCommitFields_author_step _ _ _
    (Commit.mk c.tree c.parent c.author c.email c.timestamp
      emptyCommit.message)
    (decodeAuthorValue_encode c.author c.email c.timestamp _
      ha_lt ha_gt ha_trim he_gt)]
  rw [decodeCommitFields_blank_step]
  have hmsne2 : ¬(splitOnChar '\n' c.message ++ [[]] = []) := by simp
  simp only [hmsne2, if_false]
  rw [joinChar_append_empty _ _ hmsne, joinChar_splitOnChar,
    trimGo_append_space _ '\n' (by decide), hm_trim]

theorem digitChar_ne_nul_sp (d : Nat) (h : d < 10) :
    ¬(digitChar d = Char.ofNat 0) ∧ ¬(digitChar d = ' ') := by
  interval_cases d <;> exact ⟨by decide, by decide⟩

theorem mem_natToOctal_ne (m : Nat) :
    ∀ ch ∈ natToOctal m, ¬(ch = Char.ofNat 0) ∧ ¬(ch = ' ') := by
  intro ch hch
  unfold natToOctal at hch
  obtain ⟨d, hd, hxd⟩ := List.mem_map.mp hch
  have hlt : d < 8 := natDigitsF_lt 8 (by omega) (m + 1) m (by omega) d hd
  subst hxd
  exact digitChar_ne_nul_sp d (by omega)

theorem decodeTreeLoop_encode (es : List TreeEntry) :
    ∀ (acc : List TreeEntry) (fuel : Nat),
    (∀ e ∈ es, Char.ofNat 0 ∉ e.name) →
    (∀ e ∈ es, e.hash.length = 32) →
    (encodeTree ⟨es⟩).length < fuel →
    decodeTreeLoop fuel (encodeTree ⟨es⟩) acc = .ok ⟨acc ++ es⟩ := by
  induction es with
  | nil =>
    intro acc fuel _ _ hfuel
    cases fuel with
    | zero => omega
    | succ fuel => simp [decodeTreeLoop, encodeTree]
  | cons e es ih =>
    intro acc fuel hnames hlens hfuel
    have hname : Char.ofNat 0 ∉ e.name := hnames e (List.mem_cons_self e es)
    have hlen : e.hash.length = 32 := hlens e (List.mem_cons_self e es)
    have hnames' : ∀ x ∈ es, Char.ofNat 0 ∉ x.name :=
      fun x hx => hnames x (List.mem_cons_of_mem e hx)
    have hlens' : ∀ x ∈ es, x.hash.length = 32 :=
      fun x hx => hlens x (List.mem_cons_of_mem e hx)
    have hshape : encodeTree ⟨e :: es⟩ =
        (natToOctal e.mode ++ ' ' :: e.name) ++ Char.ofNat 0 ::
          (e.hash ++ encodeTree ⟨es⟩) := by
      simp [encodeTree, List.append_assoc]
    cases fuel with
    | zero => omega
    | succ fuel =>
      rw [hshape] at hfuel ⊢
      have hlenfull : ((natToOctal e.mode ++ ' ' :: e.name) ++ Char.ofNat 0 ::
          (e.hash ++ encodeTree ⟨es⟩)).length =
          (natToOctal e.mode).length + e.name.length + 34 +
            (encodeTree ⟨es⟩).length := by
        simp only [List.length_append, List.length_cons]
        omega
      have hne : ¬((natToOctal e.mode ++ ' ' :: e.name) ++ Char.ofNat 0 ::
          (e.hash ++ encodeTree ⟨es⟩) = []) := by simp
      have hidx : indexOfChar (Char.ofNat 0)
          ((natToOctal e.mode ++ ' ' :: e.name) ++ Char.ofNat 0 ::
            (e.hash ++ encodeTree ⟨es⟩)) =
          some (natToOctal e.mode ++ ' ' :: e.name).length := by
        unfold indexOfChar
        apply findIdx?_first
        · intro x hx
          simp only [decide_eq_false_iff_not]
          intro hxe
          subst hxe
          rcases List.mem_append.mp hx with hx | hx
          · exact (mem_natToOctal_ne e.mode _ hx).1 rfl
          · rcases hx with _ | ⟨_, hx⟩
            · exact hname hx
        · simp
      have hheadlen : (natToOctal e.mode ++ ' ' :: e.name).length =
          (natToOctal e.mode).length + e.name.length + 1 := by
        simp only [List.length_append, List.length_cons]
        omega
      simp only [decodeTreeLoop, hne, if_false, hidx]
      have hno32 : ¬((natToOctal e.mode ++ ' ' :: e.name).length + 32 >
          ((natToOctal e.mode ++ ' ' :: e.name) ++ Char.ofNat 0 ::
            (e.hash ++ encodeTree ⟨es⟩)).length) := by
        rw [hlenfull, hheadlen]
        omega
      rw [if_neg hno32]
      have htake : ((natToOctal e.mode ++ ' ' :: e.name) ++ Char.ofNat 0 ::
          (e.hash ++ encodeTree ⟨es⟩)).take
          (natToOctal e.mode ++ ' ' :: e.name).length =
          natToOctal e.mode ++ ' ' :: e.name := List.take_left _ _
      rw [htake]
      have hsplit := splitN2_exact ' ' (natToOctal e.mode) e.name
        (fun hx => (mem_natToOctal_ne e.mode ' ' hx).2 rfl)
      rw [hsplit]
      dsimp only
      have hno33 : ¬((natToOctal e.mode ++ ' ' :: e.name).length + 33 >
          ((natToOctal e.mode ++ ' ' :: e.name) ++ Char.ofNat 0 ::
            (e.hash ++ encodeTree ⟨es⟩)).length) := by
        rw [hlenfull, hheadlen]
        omega
      rw [if_neg hno33]
      have hdrop1 : ((natToOctal e.mode ++ ' ' :: e.name) ++ Char.ofNat 0 ::
          (e.hash ++ encodeTree ⟨es⟩)).drop
          ((natToOctal e.mode ++ ' ' :: e.name).length + 1) =
          e.hash ++ encodeTree ⟨es⟩ := by
        have hsh : (natToOctal e.mode ++ ' ' :: e.name) ++ Char.ofNat 0 ::
            (e.hash ++ encodeTree ⟨es⟩) =
            ((natToOctal e.mode ++ ' ' :: e.name) ++ [Char.ofNat 0]) ++
              (e.hash ++ encodeTree ⟨es⟩) := by simp
        rw [hsh]
        have hl : (natToOctal e.mode ++ ' ' :: e.name).length + 1 =
            ((natToOctal e.mode ++ ' ' :: e.name) ++ [Char.ofNat 0]).length := by
          simp only [List.length_append, List.length_cons, List.length_nil]
        rw [hl, List.drop_left]
      rw [hdrop1]
      have htake32 : (e.hash ++ encodeTree ⟨es⟩).take 32 = e.hash := by
        rw [← hlen]
        exact List.take_left _ _
      rw [htake32]
      have hdrop33 : ((natToOctal e.mode ++ ' ' :: e.name) ++ Char.ofNat 0 ::
          (e.hash ++ encodeTree ⟨es⟩)).drop
          ((natToOctal e.mode ++ ' ' :: e.name).length + 33) =
          encodeTree ⟨es⟩ := by
        have hsh : (natToOctal e.mode ++ ' ' :: e.name) ++ Char.ofNat 0 ::
            (e.hash ++ encodeTree ⟨es⟩) =
            ((natToOctal e.mode ++ ' ' :: e.name) ++ Char.ofNat 0 :: e.hash) ++
              encodeTree ⟨es⟩ := by simp
        rw [hsh]
        have hl : (natToOctal e.mode ++ ' ' :: e.name).length + 33 =
            ((natToOctal e.mode ++ ' ' :: e.name) ++
              Char.ofNat 0 :: e.hash).length := by
          simp only [List.length_append, List.length_cons, List.length_nil]
          omega
        rw [hl, List.drop_left]
      rw [hdrop33, parseOctal_natToOctal]
      have hfuel' : (encodeTree ⟨es⟩).length < fuel := by
        rw [hlenfull] at hfuel
        omega
      rw [show ({ mode := e.mode, name := e.name, hash := e.hash } : TreeEntry)
        = e from rfl]
      rw [ih (acc ++ [e]) fuel hnames' hlens' hfuel']
      simp

theorem decodeTree_encodeTree_of_wf (t : Tree)
    (hnames : ∀ e ∈ t.entries, Char.ofNat 0 ∉ e.name)
    (hlens : ∀ e ∈ t.entries, e.hash.length = 32) :
    decodeTree (encodeTree t) = .ok t := by
  unfold decodeTree
  cases t with
  | mk es =>
    rw [decodeTreeLoop_encode es [] _ hnames hlens (by omega)]
    simp

/-- **C5.** For every path in the union of the base, ours and theirs
file maps (i.e. present in at least one of the three), the tree-level
merge's classification chain produces exactly the outcome of the spec's
13-row decision table keyed on presence and content equality; in
particular the content merge is invoked only when all three are present
and both sides differ from the base and from each other. -/
theorem classifyFile_eq_specTable (b o t : Option Hash)
    (h : ¬(b = none ∧ o = none ∧ t = none)) :
    classifyFile b o t = specFileAction b o t := by
  rcases b with _ | bh <;> rcases o with _ | oh <;> rcases t with _ | th
  · exact absurd ⟨rfl, rfl, rfl⟩ h
  · rfl
  · rfl
  · simp only [classifyFile, specFileAction]
    by_cases hq : oh = th
    · subst hq; simp
    · simp [hq]
  · rfl
  · simp only [classifyFile, specFileAction]
    by_cases hq : bh = th
    · subst hq; simp
    · have hq' : ¬(th = bh) := fun hh => hq hh.symm
      simp [hq, hq']
  · simp only [classifyFile, specFileAction]
    by_cases hq : bh = oh
    · subst hq; simp
    · have hq' : ¬(oh = bh) := fun hh => hq hh.symm
      simp [hq, hq']
  · simp only [classifyFile, specFileAction]
    by_cases h1 : oh = th
    · subst h1; simp
    · simp only [h1, if_false]
      by_cases h2 : bh = oh
      · subst h2
        have h3 : ¬(th = bh) := fun hh => h1 hh.symm
        simp [h3]
      · have h2' : ¬(oh = bh) := fun hh => h2 hh.symm
        by_cases h3 : bh = th
        · subst h3; simp [h2']
        · have h3' : ¬(th = bh) := fun hh => h3 hh.symm
          simp [h2, h2', h3, h3']

/-- Witness for C5: a concrete union member (present in base and ours,
absent in theirs, ours changed) classified by both chain and table. -/
theorem classifyFile_eq_specTable_witness :
    ¬((some zeroHash : Option Hash) = none ∧
        (some ("x".toList) : Option Hash) = none ∧
        (none : Option Hash) = none) ∧
      classifyFile (some zeroHash) (some ("x".toList)) none =
        specFileAction (some zeroHash) (some ("x".toList)) none :=
  ⟨fun hc => by simpa using hc.1,
   classifyFile_eq_specTable (some zeroHash) (some ("x".toList)) none
     (fun hc => by simpa using hc.1)⟩

/-- **C6 counterexample.**  The round trip is not the identity on every
commit value: a message with a trailing space comes back trimmed
(`DecodeCommit` applies `TrimSpace` to the message block), so
`Dec∘Enc ≠ id` at this commit. -/
theorem decodeCommit_encodeCommit_not_id :
    decodeCommit (encodeCommit exCommitTrailingSpace) =
      some { exCommitTrailingSpace with message := "m".toList } ∧
    ¬(decodeCommit (encodeCommit exCommitTrailingSpace) =
      some exCommitTrailingSpace) := by
  constructor
  · decide
  · decide

/-- **C6 (amended).**  `DecodeCommit ∘ EncodeCommit = id` holds for every
commit whose author is whitespace-trimmed and free of `<`, `>` and
newline, whose email is free of `>` and newline, whose message is
whitespace-trimmed, and whose digests are 32 bytes (the `src` codec
carries one optional parent, not a parents list); and
`DecodeTree ∘ EncodeTree` is the identity on every tree whose entry
names contain no NUL byte and whose digests are 32 bytes. -/
theorem codec_roundTrip_of_wf (c : Commit) (t : Tree)
    (ht_len : c.tree.length = 32) (ht_b : ∀ ch ∈ c.tree, ch.toNat < 256)
    (hp : hashIsZero c.parent = true ∨
      (c.parent.length = 32 ∧ ∀ ch ∈ c.parent, ch.toNat < 256))
    (ha_lt : '<' ∉ c.author) (ha_gt : '>' ∉ c.author) (ha_nl : '\n' ∉ c.author)
    (ha_trim : trimGo c.author = c.author)
    (he_gt : '>' ∉ c.email) (he_nl : '\n' ∉ c.email)
    (hm_trim : trimGo c.message = c.message)
    (htn : ∀ e ∈ t.entries, Char.ofNat 0 ∉ e.name)
    (hth : ∀ e ∈ t.entries, e.hash.length = 32) :
    decodeCommit (encodeCommit c) = some c ∧
      decodeTree (encodeTree t) = .ok t := by
  constructor
  · by_cases hz : hashIsZero c.parent = true
    · exact decodeCommit_encodeCommit_of_wf c ht_len ht_b hz ha_lt ha_gt
        ha_nl ha_trim he_gt he_nl hm_trim
    · rcases hp with hzz | ⟨hp_len, hp_b⟩
      · exact absurd hzz hz
      · have hz' : hashIsZero c.parent = false := by
          simpa using hz
        exact decodeCommit_encodeCommit_parent_of_wf c ht_len ht_b hz'
          hp_len hp_b ha_lt ha_gt ha_nl ha_trim he_gt he_nl hm_trim
  · exact decodeTree_encodeTree_of_wf t htn hth

/-- Witness for the amended C6 at a concrete well-formed commit and
tree. -/
theorem codec_roundTrip_of_wf_witness :
    decodeCommit (encodeCommit exCommitWf) = some exCommitWf ∧
      decodeTree (encodeTree exTreeWf) = .ok exTreeWf :=
  codec_roundTrip_of_wf exCommitWf exTreeWf (by decide) (by decide)
    (Or.inr ⟨by decide, by decide⟩) (by decide) (by decide) (by decide)
    (by decide) (by decide) (by decide) (by decide) (by decide) (by decide)

set_option maxRecDepth 8000 in
/-- **C3 counterexample.**  With a merge state present
(`IsMergeInProgress` true), `Save` does not reject: on a concrete
repository it succeeds, the returned snapshot-commit digest is stored,
and the merge state is still in place afterwards. -/
theorem save_succeeds_during_merge :
    isMergeInProgress exRepoMerging = true ∧
    (save exH exRepoMerging [] "msg".toList exWho).isSome = true ∧
    ((save exH exRepoMerging [] "msg".toList exWho).map
      (fun p => storeExists p.2.store p.1)).getD false = true ∧
    ((save exH exRepoMerging [] "msg".toList exWho).map
      (fun p => isMergeInProgress p.2)).getD false = true := by
  refine ⟨rfl, rfl, rfl, rfl⟩

theorem buildTree_fold_mergeState (H : Bytes → Hash) :
    ∀ (files : List Bytes) (acc out : List TreeEntry × Repo),
    files.foldlM (buildTreeStep H) acc = some out →
    out.2.mergeState = acc.2.mergeState ∧ out.2.head = acc.2.head ∧
      out.2.refs = acc.2.refs := by
  intro files
  induction files with
  | nil =>
    intro acc out h
    simp only [List.foldlM_nil] at h
    cases h
    exact ⟨rfl, rfl, rfl⟩
  | cons f fs ih =>
    intro acc out h
    rw [List.foldlM_cons] at h
    unfold buildTreeStep at h
    rcases hlk : acc.2.workdir.lookup f with _ | wf
    · simp only [hlk] at h
      cases h
    · simp only [hlk] at h
      have := ih _ _ h
      simpa using this

theorem buildTree_mergeState (H : Bytes → Hash) (r : Repo) (files : List Bytes)
    (t : Tree) (r1 : Repo) (h : buildTree H r files = some (t, r1)) :
    r1.mergeState = r.mergeState ∧ r1.head = r.head ∧ r1.refs = r.refs := by
  unfold buildTree at h
  split at h
  · cases h
  · rename_i entries rr hfold
    cases h
    exact buildTree_fold_mergeState H files ([], r) _ hfold

/-- **C3 (amended).**  `Save` never consults or ends the merge state: a
successful save leaves `MERGE_STATE` exactly as it was; and among the
modelled operations only `ContinueMerge` and `AbortMerge` clear it. -/
theorem save_keeps_mergeState_only_continue_abort_clear :
    (∀ (H : Bytes → Hash) (r : Repo) (files : List Bytes) (msg : Bytes)
      (who : AuthorInfo) (h : Hash) (r' : Repo),
      save H r files msg who = some (h, r') → r'.mergeState = r.mergeState) ∧
    (∀ (r r' : Repo), abortMerge r = some r' → r'.mergeState = none) ∧
    (∀ (H : Bytes → Hash) (r : Repo) (who : AuthorInfo) (r' : Repo),
      continueMerge H r who = some r' → r'.mergeState = none) := by
  refine ⟨?_, ?_, ?_⟩
  · intro H r files msg who h r' hsave
    unfold save at hsave
    split at hsave
    · cases hsave
    · split at hsave <;> simp only [] at hsave <;> split at hsave <;>
        first
          | cases hsave
          | (rename_i tree r1 hbt
             have hinv := buildTree_mergeState H r _ tree r1 hbt
             repeat' split at hsave
             all_goals cases hsave <;> simpa [setRef] using hinv.1)
  · intro r r' hab
    unfold abortMerge at hab
    repeat' first
      | split at hab
      | simp only [] at hab
    all_goals cases hab <;> rfl
  · intro H r who r' hcm
    unfold continueMerge at hcm
    repeat' first
      | split at hcm
      | simp only [] at hcm
    all_goals cases hcm <;> rfl

/-- Witness for the amended C3: the concrete save from the
counterexample state keeps its merge state; a concrete abort clears
it. -/
theorem save_keeps_mergeState_witness :
    ((save exH exRepoMerging [] "msg".toList exWho).map
      (fun p => p.2.mergeState)).getD none = some exMergeState :=
  match hs : save exH exRepoMerging [] "msg".toList exWho with
  | some (h, r') => by
    have := save_keeps_mergeState_only_continue_abort_clear.1
      exH exRepoMerging [] "msg".toList exWho h r' hs
    simp [hs, this, exRepoMerging]
  | none => by
    have : (save exH exRepoMerging [] "msg".toList exWho).isSome = true := rfl
    rw [hs] at this
    cases this

theorem lookup_cons_beq_true {α : Type} (k a : Bytes) (b : α)
    (es : List (Bytes × α)) (h : (k == a) = true) :
    List.lookup k ((a, b) :: es) = some b := by
  simp [List.lookup, h]

theorem lookup_cons_beq_false {α : Type} (k a : Bytes) (b : α)
    (es : List (Bytes × α)) (h : (k == a) = false) :
    List.lookup k ((a, b) :: es) = List.lookup k es := by
  simp [List.lookup, h]

theorem lookup_map_update_self {α : Type} (k : Bytes) (v : α) :
    ∀ (t : List (Bytes × α)), t.any (fun p => p.1 = k) = true →
    (t.map (fun p => if p.1 = k then (k, v) else p)).lookup k = some v
  | [], h => by simp at h
  | (a, b) :: t, h => by
    simp only [List.map_cons]
    by_cases hp : (a, b).1 = k
    · rw [if_pos hp]
      exact lookup_cons_beq_true k k v _ (by simp)
    · rw [if_neg hp]
      rw [lookup_cons_beq_false k a b _
        (beq_eq_false_iff_ne.mpr (fun hh => hp hh.symm))]
      apply lookup_map_update_self k v t
      simp only [List.any_cons] at h
      rcases Bool.or_eq_true_iff.mp h with h1 | h1
      · exact absurd (of_decide_eq_true h1) hp
      · exact h1

theorem lookup_append_update {α : Type} (k : Bytes) (v : α) :
    ∀ (t : List (Bytes × α)), t.any (fun p => p.1 = k) = false →
    (t ++ [(k, v)]).lookup k = some v
  | [], _ => by simp [List.lookup]
  | (a, b) :: t, h => by
    simp only [List.any_cons, Bool.or_eq_false_iff] at h
    rw [List.cons_append, lookup_cons_beq_false k a b _
      (beq_eq_false_iff_ne.mpr (fun hh => (of_decide_eq_false h.1) hh.symm))]
    exact lookup_append_update k v t h.2

theorem lookup_setAssoc_self {α : Type} (l : List (Bytes × α)) (k : Bytes)
    (v : α) : (setAssoc l k v).lookup k = some v := by
  unfold setAssoc
  by_cases hany : l.any (fun p => p.1 = k) = true
  · rw [if_pos hany]
    exact lookup_map_update_self k v l hany
  · rw [if_neg hany]
    exact lookup_append_update k v l (Bool.eq_false_iff.mpr hany)

theorem lookup_map_update_ne {α : Type} (k k' : Bytes) (v : α)
    (h : ¬(k' = k)) :
    ∀ (t : List (Bytes × α)),
    (t.map (fun p => if p.1 = k then (k, v) else p)).lookup k' = t.lookup k'
  | [] => rfl
  | (a, b) :: t => by
    simp only [List.map_cons]
    by_cases hp : (a, b).1 = k
    · rw [lookup_cons_beq_false k' a b t
          (beq_eq_false_iff_ne.mpr (fun hh => h (hh.trans hp))),
        if_pos hp,
        lookup_cons_beq_false k' k v _ (beq_eq_false_iff_ne.mpr h)]
      exact lookup_map_update_ne k k' v h t
    · rw [if_neg hp]
      by_cases hk : (k' == a) = true
      · rw [lookup_cons_beq_true k' a b _ hk, lookup_cons_beq_true k' a b t hk]
      · have hk' : (k' == a) = false := by simpa using hk
        rw [lookup_cons_beq_false k' a b _ hk',
          lookup_cons_beq_false k' a b t hk']
        exact lookup_map_update_ne k k' v h t

theorem lookup_append_single_ne {α : Type} (k k' : Bytes) (v : α)
    (h : ¬(k' = k)) :
    ∀ (t : List (Bytes × α)), (t ++ [(k, v)]).lookup k' = t.lookup k'
  | [] => by
    rw [List.nil_append,
      lookup_cons_beq_false k' k v [] (beq_eq_false_iff_ne.mpr h)]
  | (a, b) :: t => by
    rw [List.cons_append]
    by_cases hk : (k' == a) = true
    · rw [lookup_cons_beq_true k' a b _ hk, lookup_cons_beq_true k' a b t hk]
    · have hk' : (k' == a) = false := by simpa using hk
      rw [lookup_cons_beq_false k' a b _ hk',
        lookup_cons_beq_false k' a b t hk']
      exact lookup_append_single_ne k k' v h t

theorem lookup_setAssoc_ne {α : Type} (l : List (Bytes × α)) (k k' : Bytes)
    (v : α) (h : ¬(k' = k)) : (setAssoc l k v).lookup k' = l.lookup k' := by
  unfold setAssoc
  by_cases hany : l.any (fun p => p.1 = k) = true
  · rw [if_pos hany]
    exact lookup_map_update_ne k k' v h l
  · rw [if_neg hany]
    exact lookup_append_single_ne k k' v h l

/-- **C8 counterexample.**  `SetRef` does not write a temporary file and
rename: its trace is a directory creation followed by one direct
`os.WriteFile` of the ref path (no rename operation at all), and an
interruption mid-write can leave the ref file holding a strict prefix of
the new contents — neither the previous contents nor the new ones. -/
theorem setRef_not_atomic :
    ((setRefTrace "refs/heads/main".toList exHashA).all
      (fun op => match op with | .rename _ _ => false | _ => true)) = true ∧
    (setAssoc [("refs/heads/main".toList, hashString exHashB ++ ['\n'])]
        "refs/heads/main".toList ((hashString exHashA ++ ['\n']).take 3)) ∈
      crashStates [("refs/heads/main".toList, hashString exHashB ++ ['\n'])]
        (setRefTrace "refs/heads/main".toList exHashA) ∧
    ¬((setAssoc [("refs/heads/main".toList, hashString exHashB ++ ['\n'])]
        "refs/heads/main".toList ((hashString exHashA ++ ['\n']).take 3)).lookup
        "refs/heads/main".toList = some (hashString exHashB ++ ['\n'])) ∧
    ¬((setAssoc [("refs/heads/main".toList, hashString exHashB ++ ['\n'])]
        "refs/heads/main".toList ((hashString exHashA ++ ['\n']).take 3)).lookup
        "refs/heads/main".toList = some (hashString exHashA ++ ['\n'])) := by
  refine ⟨rfl, ?_, by decide, by decide⟩
  simp only [setRefTrace, crashStates, applyFsOp]
  refine List.mem_append.mpr (Or.inr (List.mem_append.mpr (Or.inl ?_)))
  refine List.mem_cons.mpr (Or.inr ?_)
  exact List.mem_map.mpr ⟨3, List.mem_range.mpr (by decide), rfl⟩

/-- **C8 (amended).**  `SetRef` replaces the ref file with one direct
write (`MkdirAll` then `WriteFile` of `<hex>\n`; no temporary file, no
rename), so an interrupted update can leave a truncated file.  It is
the merge-state save that uses write-temp-then-rename: every crash
state of `SaveMergeState`'s trace leaves `MERGE_STATE` holding either
its previous contents or the new contents, never anything else. -/
theorem setRef_direct_write_saveMergeState_atomic :
    (∀ (ref : Bytes) (h : Hash), setRefTrace ref h =
      [.mkdirAll (dirOf ref), .writeFile ref (hashString h ++ ['\n'])]) ∧
    (∀ (data : Bytes) (fs0 fs' : FileSys),
      fs' ∈ crashStates fs0 (saveMergeStateTrace data) →
      fs'.lookup mergeStatePath = fs0.lookup mergeStatePath ∨
        fs'.lookup mergeStatePath = some data) := by
  constructor
  · intro ref h
    rfl
  · intro data fs0 fs' hmem
    have htmpne : ¬(mergeStatePath = mergeStatePath ++ ".tmp".toList) := by
      intro hh
      have := congrArg List.length hh
      simp at this
    simp only [saveMergeStateTrace, crashStates, applyFsOp] at hmem
    rcases List.mem_append.mp hmem with h1 | h1
    · rcases List.mem_cons.mp h1 with h2 | h2
      · subst h2
        left
        rfl
      · obtain ⟨n, _, h3⟩ := List.mem_map.mp h2
        rw [← h3]
        left
        exact lookup_setAssoc_ne fs0 _ _ _ htmpne
    · rcases List.mem_append.mp h1 with h2 | h2
      · rcases List.mem_cons.mp h2 with h3 | h3
        · subst h3
          left
          exact lookup_setAssoc_ne fs0 _ _ _ htmpne
        · cases h3
      · rcases List.mem_cons.mp h2 with h3 | h3
        · subst h3
          rw [lookup_setAssoc_self fs0 (mergeStatePath ++ ".tmp".toList) data]
          right
          exact lookup_setAssoc_self _ _ _
        · cases h3

theorem setRef_direct_write_saveMergeState_atomic_witness :
    setRefTrace "refs/heads/main".toList exHashA =
      [.mkdirAll (dirOf "refs/heads/main".toList),
       .writeFile "refs/heads/main".toList (hashString exHashA ++ ['\n'])] ∧
    (List.lookup mergeStatePath [(mergeStatePath, "x".toList)] =
        List.lookup mergeStatePath ([] : FileSys) ∨
      List.lookup mergeStatePath [(mergeStatePath, "x".toList)] =
        some "x".toList) :=
  ⟨setRef_direct_write_saveMergeState_atomic.1 "refs/heads/main".toList
      exHashA,
    setRef_direct_write_saveMergeState_atomic.2 "x".toList []
      [(mergeStatePath, "x".toList)] (by decide)⟩

set_option maxRecDepth 16000 in
/-- **C4.** (code bug)  `writeConflictMarkers` is an admitted stub
("TODO: Implement proper conflict marker generation") that returns
`nil` without writing anything.  On the conflicting three-way merge of
the repository's own `TestMerge_WithConflicts` scenario, the merge
returns `Conflicts = true` for `file1.txt`, but the working-tree file
still holds `"main content"` — not the seven-character conflict-marker
content the claim (and `docs/MERGING.md`) promise. -/
theorem merge_conflict_leaves_workdir_untouched :
    ((mergeBranch exH exRepoConflict "feature".toList defaultMergeOptions
        exWho).map (fun p => p.1.conflicts)).getD false = true ∧
    ((mergeBranch exH exRepoConflict "feature".toList defaultMergeOptions
        exWho).map (fun p => p.1.conflicted)).getD [] =
      ["file1.txt".toList] ∧
    ((mergeBranch exH exRepoConflict "feature".toList defaultMergeOptions
        exWho).map (fun p => p.2.workdir.lookup "file1.txt".toList)).getD
        none = some ⟨"main content".toList, false⟩ ∧
    ¬("main content".toList.take 7 = "<<<<<<<".toList) := by
  refine ⟨rfl, rfl, rfl, by decide⟩

/-- **C2.** (code bug) `patch(a, diff(a, b)) = b` fails already at the
input of the repository's own test `TestPatch_SimpleApplication`
(`a = "line1\nline2\nline3\n"`, `b = "line1\nmodified\nline3\n"`): the
backtracking pass reads its per-level trace maps at keys of the wrong
parity (the saved `vCopy` holds keys of parity `d`, the reads ask for
parity `d±1`, defaulting to 0), so the edit script degenerates and the
patched text keeps `line2`, drops `modified`, and loses the trailing
newline. -/
theorem patch_myersDiff_fails_on_own_test :
    patch "line1\nline2\nline3\n".toList
        (myersDiff "line1\nline2\nline3\n".toList
          "line1\nmodified\nline3\n".toList) =
      "line1\nline2\nline3".toList ∧
    ¬("line1\nline2\nline3".toList = "line1\nmodified\nline3\n".toList) := by
  constructor
  · rfl
  · decide

/-- **C10.** (code bug) `DecodeTree` is not total: the guard
`nullIdx+32 > len(data)` is off by one (the copy needs
`nullIdx+33 ≤ len(data)`), so on an input whose data ends exactly 31
bytes after the NUL separator the slice `data[nullIdx+1 : nullIdx+33]`
exceeds the buffer and panics, while 32 bytes after the NUL (the
claim's example) decode fine. -/
theorem decodeTree_panics_off_by_one :
    decodeTree ("0 a".toList ++ Char.ofNat 0 :: List.replicate 31 'x') =
      .panic ∧
    decodeTree ("0 a".toList ++ Char.ofNat 0 :: List.replicate 32 'x') =
      .ok ⟨[⟨0, "a".toList, List.replicate 32 'x'⟩]⟩ := by
  constructor
  · rfl
  · rfl

/-! ## The merge-era commit codec round-trip and the merge commit (C1) -/

theorem splitOnChar_flatMap_lines {α : Type} (sep : Char) (f : α → Bytes) :
    ∀ (ps : List α) (tail : Bytes), (∀ p ∈ ps, sep ∉ f p) →
    splitOnChar sep ((ps.flatMap (fun p => f p ++ [sep])) ++ tail) =
      ps.map f ++ splitOnChar sep tail
  | [], tail, _ => by simp
  | p :: ps, tail, h => by
    have hshape : ((p :: ps).flatMap (fun q => f q ++ [sep])) ++ tail =
        f p ++ sep :: ((ps.flatMap (fun q => f q ++ [sep])) ++ tail) := by
      simp
    rw [hshape, splitOnChar_append_sep sep _ _ (h p (List.mem_cons_self p ps)),
      splitOnChar_flatMap_lines sep f ps tail
        (fun q hq => h q (List.mem_cons_of_mem p hq))]
    rfl

theorem splitOnChar_encodeCommitM (c : CommitM)
    (ht_b : ∀ ch ∈ c.tree, ch.toNat < 256)
    (hp_b : ∀ p ∈ c.parents, ∀ ch ∈ p, ch.toNat < 256)
    (ha_nl : '\n' ∉ c.author) (he_nl : '\n' ∉ c.email) :
    splitOnChar '\n' (encodeCommitM c) =
      ("tree ".toList ++ hashString c.tree) ::
      (c.parents.map (fun p => "parent ".toList ++ hashString p) ++
        ("author ".toList ++ (c.author ++ ' ' :: '<' ::
          (c.email ++ '>' :: ' ' :: intToDec c.timestamp))) ::
        [] :: splitOnChar '\n' c.message) := by
  have hdata : encodeCommitM c =
      ("tree ".toList ++ hashString c.tree) ++ '\n' ::
      ((c.parents.flatMap
          (fun p => ("parent ".toList ++ hashString p) ++ ['\n'])) ++
        (("author ".toList ++ (c.author ++ ' ' :: '<' ::
            (c.email ++ '>' :: ' ' :: intToDec c.timestamp))) ++
          '\n' :: ('\n' :: c.message))) := by
    simp [encodeCommitM, List.append_assoc]
  rw [hdata]
  rw [splitOnChar_append_sep _ _ _ (by
    intro hmem
    rcases List.mem_append.mp hmem with hmem | hmem
    · revert hmem; decide
    · exact (mem_bytesToHex_ne c.tree ht_b '\n' hmem).1 rfl)]
  rw [splitOnChar_flatMap_lines '\n'
    (fun p => "parent ".toList ++ hashString p) c.parents _ (by
      intro p hp hmem
      rcases List.mem_append.mp hmem with hmem | hmem
      · revert hmem; decide
      · exact (mem_bytesToHex_ne p (hp_b p hp) '\n' hmem).1 rfl)]
  rw [splitOnChar_append_sep _ _ _ (by
    intro hmem
    rcases List.mem_append.mp hmem with hmem | hmem
    · revert hmem; decide
    · rcases List.mem_append.mp hmem with hmem | hmem
      · exact ha_nl hmem
      · rcases hmem with _ | ⟨_, hmem⟩
        rcases hmem with _ | ⟨_, hmem⟩
        rcases List.mem_append.mp hmem with hmem | hmem
        · exact he_nl hmem
        · rcases hmem with _ | ⟨_, hmem⟩
          rcases hmem with _ | ⟨_, hmem⟩
          exact (mem_intToDec_ne c.timestamp '\n' hmem).1 rfl)]
  rw [splitOnChar_cons_sep]

theorem takeParentLines_parents :
    ∀ (ps : List Hash),
    (∀ p ∈ ps, p.length = 32 ∧ ∀ ch ∈ p, ch.toNat < 256) →
    ∀ (authorLine : Bytes) (rest : List Bytes),
      authorLine.take 7 = "author ".toList →
      takeParentLines (ps.map (fun p => "parent ".toList ++ hashString p) ++
        authorLine :: rest) = some (ps, authorLine :: rest)
  | [], _, authorLine, rest, hauth => by
    simp only [List.map_nil, List.nil_append, takeParentLines]
    rw [hauth]
    rw [if_neg (show ¬("author ".toList = "parent ".toList) from by decide)]
  | p :: ps, hwf, authorLine, rest, hauth => by
    simp only [List.map_cons, List.cons_append, takeParentLines,
      List.append_eq]
    have htake : ("parent ".toList ++ hashString p).take 7 =
        "parent ".toList := by
      rw [show (7 : Nat) = "parent ".toList.length from by decide,
        List.take_left]
    have hdrop : ("parent ".toList ++ hashString p).drop 7 = hashString p := by
      rw [show (7 : Nat) = "parent ".toList.length from by decide,
        List.drop_left]
    rw [htake, if_pos rfl, hdrop,
      parseHash_hashString p (hwf p (List.mem_cons_self p ps)).1
        (hwf p (List.mem_cons_self p ps)).2,
      takeParentLines_parents ps
        (fun q hq => hwf q (List.mem_cons_of_mem p hq)) authorLine rest hauth]

theorem decodeCommitM_encodeCommitM (c : CommitM)
    (ht_len : c.tree.length = 32) (ht_b : ∀ ch ∈ c.tree, ch.toNat < 256)
    (hp : ∀ p ∈ c.parents, p.length = 32 ∧ ∀ ch ∈ p, ch.toNat < 256)
    (ha_lt : '<' ∉ c.author) (ha_gt : '>' ∉ c.author)
    (ha_nl : '\n' ∉ c.author)
    (he_gt : '>' ∉ c.email) (he_nl : '\n' ∉ c.email) :
    decodeCommitM (encodeCommitM c) = some c := by
  unfold decodeCommitM
  rw [splitOnChar_encodeCommitM c ht_b (fun p hp' => (hp p hp').2) ha_nl he_nl]
  dsimp only
  have htake5 : ("tree ".toList ++ hashString c.tree).take 5 =
      "tree ".toList := by
    rw [show (5 : Nat) = "tree ".toList.length from by decide, List.take_left]
  have hdrop5 : ("tree ".toList ++ hashString c.tree).drop 5 =
      hashString c.tree := by
    rw [show (5 : Nat) = "tree ".toList.length from by decide, List.drop_left]
  rw [htake5, if_pos rfl, hdrop5, parseHash_hashString c.tree ht_len ht_b]
  have hauth7 : ("author ".toList ++ (c.author ++ ' ' :: '<' ::
      (c.email ++ '>' :: ' ' :: intToDec c.timestamp))).take 7 =
      "author ".toList := by
    rw [show (7 : Nat) = "author ".toList.length from by decide,
      List.take_left]
  rw [takeParentLines_parents c.parents hp _ _ hauth7]
  dsimp only
  rw [hauth7, if_pos ⟨rfl, rfl⟩]
  have hdrop7 : ("author ".toList ++ (c.author ++ ' ' :: '<' ::
      (c.email ++ '>' :: ' ' :: intToDec c.timestamp))).drop 7 =
      c.author ++ ' ' :: '<' ::
        (c.email ++ '>' :: ' ' :: intToDec c.timestamp) := by
    rw [show (7 : Nat) = "author ".toList.length from by decide,
      List.drop_left]
  rw [hdrop7]
  have hes : indexOfChar '<' (c.author ++ ' ' :: '<' ::
      (c.email ++ '>' :: ' ' :: intToDec c.timestamp)) =
      some (c.author.length + 1) := by
    unfold indexOfChar
    have hsh : c.author ++ ' ' :: '<' ::
        (c.email ++ '>' :: ' ' :: intToDec c.timestamp) =
        (c.author ++ [' ']) ++ '<' ::
          (c.email ++ '>' :: ' ' :: intToDec c.timestamp) := by
      simp
    rw [hsh]
    have := findIdx?_first (· = '<') (c.author ++ [' ']) '<'
      (c.email ++ '>' :: ' ' :: intToDec c.timestamp)
      (by
        intro x hx
        rcases List.mem_append.mp hx with hx | hx
        · simp only [decide_eq_false_iff_not]
          exact fun hxe => ha_lt (hxe ▸ hx)
        · simp only [List.mem_singleton] at hx
          subst hx; decide)
      (by decide)
    rw [this]
    simp
  have hee : indexOfChar '>' (c.author ++ ' ' :: '<' ::
      (c.email ++ '>' :: ' ' :: intToDec c.timestamp)) =
      some (c.author.length + 2 + c.email.length) := by
    unfold indexOfChar
    have hsh : c.author ++ ' ' :: '<' ::
        (c.email ++ '>' :: ' ' :: intToDec c.timestamp) =
        (c.author ++ ' ' :: '<' :: c.email) ++ '>' ::
          (' ' :: intToDec c.timestamp) := by
      simp
    rw [hsh]
    have := findIdx?_first (· = '>') (c.author ++ ' ' :: '<' :: c.email) '>'
      (' ' :: intToDec c.timestamp)
      (by
        intro x hx
        simp only [decide_eq_false_iff_not]
        intro hxe
        subst hxe
        rcases List.mem_append.mp hx with hx | hx
        · exact ha_gt hx
        · rcases hx with _ | ⟨_, hx⟩
          rcases hx with _ | ⟨_, hx⟩
          exact he_gt hx)
      (by decide)
    rw [this]
    simp only [List.length_append, List.length_cons]
    congr 1
    omega
  rw [hes, hee]
  dsimp only
  have htakeA : (c.author ++ ' ' :: '<' ::
      (c.email ++ '>' :: ' ' :: intToDec c.timestamp)).take
      (c.author.length + 1 - 1) = c.author := by
    rw [show c.author.length + 1 - 1 = c.author.length from by omega]
    have hsh : c.author ++ ' ' :: '<' ::
        (c.email ++ '>' :: ' ' :: intToDec c.timestamp) =
        c.author ++ (' ' :: '<' ::
          (c.email ++ '>' :: ' ' :: intToDec c.timestamp)) := rfl
    rw [hsh, List.take_left]
  have hdrop1 : (c.author ++ ' ' :: '<' ::
      (c.email ++ '>' :: ' ' :: intToDec c.timestamp)).drop
      (c.author.length + 1 + 1) =
      c.email ++ '>' :: ' ' :: intToDec c.timestamp := by
    have hsh : c.author ++ ' ' :: '<' ::
        (c.email ++ '>' :: ' ' :: intToDec c.timestamp) =
        (c.author ++ [' ', '<']) ++
          (c.email ++ '>' :: ' ' :: intToDec c.timestamp) := by
      simp
    rw [hsh]
    have hl : c.author.length + 1 + 1 = (c.author ++ [' ', '<']).length := by
      simp
    rw [hl, List.drop_left]
  have htake2 : (c.email ++ '>' :: ' ' :: intToDec c.timestamp).take
      (c.author.length + 2 + c.email.length - (c.author.length + 1 + 1)) =
      c.email := by
    have hl : c.author.length + 2 + c.email.length -
        (c.author.length + 1 + 1) = c.email.length := by omega
    rw [hl]
    exact List.take_left c.email ('>' :: ' ' :: intToDec c.timestamp)
  have hdrop2 : (c.author ++ ' ' :: '<' ::
      (c.email ++ '>' :: ' ' :: intToDec c.timestamp)).drop
      (c.author.length + 2 + c.email.length + 2) = intToDec c.timestamp := by
    have hsh : c.author ++ ' ' :: '<' ::
        (c.email ++ '>' :: ' ' :: intToDec c.timestamp) =
        (c.author ++ ' ' :: '<' :: c.email ++ ['>', ' ']) ++
          intToDec c.timestamp := by
      simp
    rw [hsh]
    have hl : c.author.length + 2 + c.email.length + 2 =
        (c.author ++ ' ' :: '<' :: c.email ++ ['>', ' ']).length := by
      simp
      omega
    rw [hl, List.drop_left]
  rw [htakeA, hdrop1, htake2, hdrop2, parseDecInt_intToDec,
    joinChar_splitOnChar]

theorem any_key_eq_false_of_lookup_none {α : Type} :
    ∀ (l : List (Bytes × α)) (k : Bytes), l.lookup k = none →
    l.any (fun p => p.1 = k) = false
  | [], _, _ => rfl
  | (a, b) :: t, k, h => by
    by_cases hk : (k == a) = true
    · rw [lookup_cons_beq_true k a b t hk] at h
      cases h
    · have hk' : (k == a) = false := Bool.eq_false_iff.mpr hk
      rw [lookup_cons_beq_false k a b t hk'] at h
      simp only [List.any_cons, any_key_eq_false_of_lookup_none t k h,
        Bool.or_false]
      simp only [decide_eq_false_iff_not]
      intro hh
      rw [beq_eq_false_iff_ne] at hk'
      exact hk' hh.symm

theorem getCommitM_putCommit (H : Bytes → Hash) (st : Store) (c : CommitM)
    (hC : Hash) (hhC : hC = H (frameObj .commit (encodeCommitM c)))
    (hfresh : storeGet st hC = none)
    (hdec : decodeCommitM (encodeCommitM c) = some c) :
    (putCommit H st c).1 = hC ∧
    getCommitM (putCommit H st c).2 hC = some c := by
  subst hhC
  unfold putCommit storePut
  dsimp only
  rw [show storeGet st (H (frameObj .commit (encodeCommitM c))) = none from
    hfresh]
  dsimp only
  refine ⟨rfl, ?_⟩
  unfold getCommitM storeGet
  unfold storeGet at hfresh
  rw [lookup_append_update _ _ st
    (any_key_eq_false_of_lookup_none st _ hfresh)]
  dsimp only
  rw [if_pos rfl, hdec]

theorem storeGet_putTree_ne (H : Bytes → Hash) (st : Store) (t : Tree)
    (h hT : Hash) (hhT : hT = H (frameObj .tree (encodeTree t)))
    (hne : ¬(h = hT)) :
    storeGet (putTree H st t).2 h = storeGet st h := by
  subst hhT
  unfold putTree storePut
  dsimp only
  cases hst : storeGet st (H (frameObj .tree (encodeTree t))) with
  | some o => rfl
  | none =>
    dsimp only
    unfold storeGet
    exact lookup_append_single_ne (H (frameObj .tree (encodeTree t))) h _
      hne st

theorem putTree_fst (H : Bytes → Hash) (st : Store) (t : Tree) :
    (putTree H st t).1 = H (frameObj .tree (encodeTree t)) := by
  unfold putTree storePut
  dsimp only
  cases storeGet st (H (frameObj .tree (encodeTree t))) <;> rfl

/-- **C1.**  Both merge-commit creation paths — `createMergeCommit`
(a conflict-free three-way merge) and `ContinueMerge` (all conflicts
resolved) — store a commit whose parents are exactly
`[ourCommit, theirCommit]` in that order with message
`Merge branch '<branch>'`, and reading that commit back from the
object store (encode, then decode) returns both parents in that
order. -/
theorem mergeCommit_two_parents_ordered_roundtrip :
    (∀ (H : Bytes → Hash) (r : Repo) (theirBranch : Bytes)
       (ourCommit theirCommit hT hC : Hash) (files : List (Bytes × Hash))
       (who : AuthorInfo) (res : Hash × Repo),
      hT = H (frameObj .tree (encodeTree
        ⟨files.map (fun p => ⟨0o100644, p.1, p.2⟩)⟩)) →
      hC = H (frameObj .commit (encodeCommitM
        (mkMergeCommit theirBranch ourCommit theirCommit hT who))) →
      hT.length = 32 → (∀ ch ∈ hT, ch.toNat < 256) →
      ourCommit.length = 32 → (∀ ch ∈ ourCommit, ch.toNat < 256) →
      theirCommit.length = 32 → (∀ ch ∈ theirCommit, ch.toNat < 256) →
      '<' ∉ who.author → '>' ∉ who.author → '\n' ∉ who.author →
      '>' ∉ who.email → '\n' ∉ who.email →
      storeGet r.store hC = none → ¬(hC = hT) →
      createMergeCommit H r theirBranch ourCommit theirCommit files who =
        some res →
      (mkMergeCommit theirBranch ourCommit theirCommit hT who).parents =
        [ourCommit, theirCommit] ∧
      (mkMergeCommit theirBranch ourCommit theirCommit hT who).message =
        "Merge branch '".toList ++ theirBranch ++ "'".toList ∧
      res.1 = hC ∧
      getCommitM res.2.store res.1 =
        some (mkMergeCommit theirBranch ourCommit theirCommit hT who)) ∧
    (∀ (H : Bytes → Hash) (r : Repo) (who : AuthorInfo)
       (state : MergeStateM) (tree : Tree) (r1 : Repo)
       (ourCommit theirCommit hT hC : Hash) (r' : Repo),
      r.mergeState = some state →
      buildTree H r (listAllFiles r) = some (tree, r1) →
      parseHash state.ourCommit = some ourCommit →
      parseHash state.theirCommit = some theirCommit →
      hT = H (frameObj .tree (encodeTree tree)) →
      hC = H (frameObj .commit (encodeCommitM
        (mkMergeCommit state.branch ourCommit theirCommit hT who))) →
      hT.length = 32 → (∀ ch ∈ hT, ch.toNat < 256) →
      ourCommit.length = 32 → (∀ ch ∈ ourCommit, ch.toNat < 256) →
      theirCommit.length = 32 → (∀ ch ∈ theirCommit, ch.toNat < 256) →
      '<' ∉ who.author → '>' ∉ who.author → '\n' ∉ who.author →
      '>' ∉ who.email → '\n' ∉ who.email →
      storeGet r1.store hC = none → ¬(hC = hT) →
      continueMerge H r who = some r' →
      (mkMergeCommit state.branch ourCommit theirCommit hT who).parents =
        [ourCommit, theirCommit] ∧
      getCommitM r'.store hC =
        some (mkMergeCommit state.branch ourCommit theirCommit hT who)) := by
  constructor
  · intro H r theirBranch ourCommit theirCommit hT hC files who res
    intro hhT hhC hT_len hT_b ho_len ho_b hth_len hth_b
    intro ha_lt ha_gt ha_nl he_gt he_nl hfresh hne hres
    have hdec := decodeCommitM_encodeCommitM
      (mkMergeCommit theirBranch ourCommit theirCommit hT who)
      hT_len hT_b
      (by
        intro p hp
        have hp' : p ∈ [ourCommit, theirCommit] := hp
        rcases List.mem_cons.mp hp' with h | hp'
        · subst h; exact ⟨ho_len, ho_b⟩
        · rcases List.mem_cons.mp hp' with h | hp'
          · subst h; exact ⟨hth_len, hth_b⟩
          · cases hp')
      ha_lt ha_gt ha_nl he_gt he_nl
    have hptfst : (putTree H r.store
        ⟨files.map (fun p => ⟨0o100644, p.1, p.2⟩)⟩).1 = hT := by
      rw [putTree_fst]; exact hhT.symm
    have hfreshPt : storeGet (putTree H r.store
        ⟨files.map (fun p => ⟨0o100644, p.1, p.2⟩)⟩).2 hC = none := by
      rw [storeGet_putTree_ne H r.store _ hC hT hhT hne]
      exact hfresh
    have h1 := getCommitM_putCommit H
      (putTree H r.store ⟨files.map (fun p => ⟨0o100644, p.1, p.2⟩)⟩).2
      (mkMergeCommit theirBranch ourCommit theirCommit hT who)
      hC hhC hfreshPt hdec
    unfold createMergeCommit at hres
    dsimp only at hres
    rw [hptfst] at hres
    cases hgb : getCurrentBranch { r with store := (putCommit H
        (putTree H r.store ⟨files.map (fun p => ⟨0o100644, p.1, p.2⟩)⟩).2
        (mkMergeCommit theirBranch ourCommit theirCommit hT who)).2 } with
    | none => rw [hgb] at hres; cases hres
    | some branch =>
      rw [hgb] at hres
      dsimp only at hres
      injection hres with hres
      subst hres
      refine ⟨rfl, rfl, h1.1, ?_⟩
      rw [show (((putCommit H (putTree H r.store
          ⟨files.map (fun p => ⟨0o100644, p.1, p.2⟩)⟩).2
          (mkMergeCommit theirBranch ourCommit theirCommit hT who)).1,
          setRef { r with store := (putCommit H (putTree H r.store
            ⟨files.map (fun p => ⟨0o100644, p.1, p.2⟩)⟩).2
            (mkMergeCommit theirBranch ourCommit theirCommit hT who)).2 }
            ("refs/heads/".toList ++ branch)
            (putCommit H (putTree H r.store
              ⟨files.map (fun p => ⟨0o100644, p.1, p.2⟩)⟩).2
              (mkMergeCommit theirBranch ourCommit theirCommit hT
                who)).1) : Hash × Repo).1 = hC from h1.1]
      exact h1.2
  · intro H r who state tree r1 ourCommit theirCommit hT hC r2
    intro hms hbt hpo hpt hhT hhC hT_len hT_b ho_len ho_b hth_len hth_b
    intro ha_lt ha_gt ha_nl he_gt he_nl hfresh hne hres
    have hdec := decodeCommitM_encodeCommitM
      (mkMergeCommit state.branch ourCommit theirCommit hT who)
      hT_len hT_b
      (by
        intro p hp
        have hp' : p ∈ [ourCommit, theirCommit] := hp
        rcases List.mem_cons.mp hp' with h | hp'
        · subst h; exact ⟨ho_len, ho_b⟩
        · rcases List.mem_cons.mp hp' with h | hp'
          · subst h; exact ⟨hth_len, hth_b⟩
          · cases hp')
      ha_lt ha_gt ha_nl he_gt he_nl
    have hptfst : (putTree H r1.store tree).1 = hT := by
      rw [putTree_fst]; exact hhT.symm
    have hfreshPt : storeGet (putTree H r1.store tree).2 hC = none := by
      rw [storeGet_putTree_ne H r1.store tree hC hT hhT hne]
      exact hfresh
    have h1 := getCommitM_putCommit H (putTree H r1.store tree).2
      (mkMergeCommit state.branch ourCommit theirCommit hT who)
      hC hhC hfreshPt hdec
    unfold continueMerge at hres
    rw [hms] at hres
    dsimp only at hres
    by_cases hv : validateResolved state = true
    · rw [if_neg (not_not_intro hv)] at hres
      rw [hbt] at hres
      dsimp only at hres
      rw [hpo, hpt] at hres
      dsimp only at hres
      rw [hptfst] at hres
      cases hgb : getCurrentBranch { r1 with store := (putCommit H
          (putTree H r1.store tree).2
          (mkMergeCommit state.branch ourCommit theirCommit hT who)).2 } with
      | none => rw [hgb] at hres; cases hres
      | some branch =>
        rw [hgb] at hres
        dsimp only at hres
        injection hres with hres
        subst hres
        exact ⟨rfl, h1.2⟩
    · rw [if_pos hv] at hres
      cases hres

set_option maxRecDepth 16000 in
theorem mergeCommit_two_parents_ordered_roundtrip_witness :
    ((createMergeCommit exH exRepoConflict "feature".toList hCommitOurs
        hCommitTheirs [("file1.txt".toList, hBlobOurs)] exWho).map
      (fun res => getCommitM res.2.store res.1)).getD none =
        some exMergeCommit ∧
    ((continueMerge exH exRepoResolved exWho).map
      (fun rr => getCommitM rr.store hMergeCommit)).getD none =
        some exMergeCommit ∧
    exMergeCommit.parents = [hCommitOurs, hCommitTheirs] := by
  refine ⟨?_, ?_, by decide⟩
  · exact (match hs : createMergeCommit exH exRepoConflict "feature".toList
        hCommitOurs hCommitTheirs [("file1.txt".toList, hBlobOurs)] exWho with
    | some res => by
      have key := mergeCommit_two_parents_ordered_roundtrip.1 exH
        exRepoConflict "feature".toList hCommitOurs hCommitTheirs hTreeOurs
        hMergeCommit [("file1.txt".toList, hBlobOurs)] exWho res
        rfl rfl (by decide) (by decide) (by decide) (by decide) (by decide)
        (by decide) (by decide) (by decide) (by decide) (by decide)
        (by decide) (by decide) (by decide) hs
      simp [hs, key.2.2.2]
      rfl
    | none => by
      have hsome : (createMergeCommit exH exRepoConflict "feature".toList
          hCommitOurs hCommitTheirs [("file1.txt".toList, hBlobOurs)]
          exWho).isSome = true := by decide
      rw [hs] at hsome
      cases hsome)
  · exact (match hs : continueMerge exH exRepoResolved exWho with
    | some rr => by
      have key := mergeCommit_two_parents_ordered_roundtrip.2 exH
        exRepoResolved exWho exResolvedState treeOurs exRepoResolved
        hCommitOurs hCommitTheirs hTreeOurs hMergeCommit rr
        rfl rfl rfl rfl rfl rfl (by decide) (by decide) (by decide)
        (by decide) (by decide) (by decide) (by decide) (by decide)
        (by decide) (by decide) (by decide) (by decide) (by decide) hs
      simp [hs, key.2]
      rfl
    | none => by
      have hsome : (continueMerge exH exRepoResolved exWho).isSome = true :=
        by decide
      rw [hs] at hsome
      cases hsome)

/-! ## Checkout invariance and the fast-forward path (C7) -/

theorem checkoutStep_inv (acc : Repo) (e : TreeEntry) (r2 : Repo)
    (h : checkoutStep acc e = some r2) :
    r2.store = acc.store ∧ r2.refs = acc.refs ∧ r2.head = acc.head ∧
    r2.mergeState = acc.mergeState := by
  unfold checkoutStep at h
  split at h
  · cases h
  · split at h
    · cases h
      exact ⟨rfl, rfl, rfl, rfl⟩
    · cases h
      exact ⟨rfl, rfl, rfl, rfl⟩

theorem checkout_fold_inv :
    ∀ (l : List TreeEntry) (acc r2 : Repo),
    l.foldlM checkoutStep acc = some r2 →
    r2.store = acc.store ∧ r2.refs = acc.refs ∧ r2.head = acc.head ∧
    r2.mergeState = acc.mergeState
  | [], acc, r2, h => by
    simp only [List.foldlM_nil] at h
    cases h
    exact ⟨rfl, rfl, rfl, rfl⟩
  | e :: l, acc, r2, h => by
    rw [List.foldlM_cons] at h
    cases hstep : checkoutStep acc e with
    | none => rw [hstep] at h; cases h
    | some acc1 =>
      simp only [hstep] at h
      have h1 := checkoutStep_inv acc e acc1 hstep
      have h2 := checkout_fold_inv l acc1 r2 h
      exact ⟨h2.1.trans h1.1, (h2.2.1).trans h1.2.1,
        (h2.2.2.1).trans h1.2.2.1, (h2.2.2.2).trans h1.2.2.2⟩

theorem checkout_inv (r : Repo) (hh : Hash) (r2 : Repo)
    (hc : checkout r hh = some r2) :
    r2.store = r.store ∧ r2.refs = r.refs ∧ r2.head = r.head ∧
    r2.mergeState = r.mergeState := by
  unfold checkout at hc
  split at hc
  · cases hc
  · split at hc
    · cases hc
    · exact checkout_fold_inv _ r r2 hc

/-- **C7.**  When `ours` is an ancestor of `theirs` (`CanFastForward`
answers true), `Merge` with the default options fast-forwards: it
advances the current branch ref to exactly `theirs`, creates no object
(the store is unchanged), and returns `FastForward = true`,
`Conflicts = false`. -/
theorem fastForward_advances_ref_no_new_commit
    (H : Bytes → Hash) (r : Repo) (branch curBranch : Bytes)
    (ourCommit theirCommit baseCommit : Hash) (who : AuthorInfo)
    (result : MergeResultR) (r2 : Repo)
    (hgr : getRef r ("refs/heads/".toList ++ branch) = some theirCommit)
    (hgc : getCurrentCommit r = some ourCommit)
    (hlca : findLCA r.store ourCommit theirCommit = .found baseCommit)
    (hff : canFastForward r.store ourCommit theirCommit = some true)
    (hcb : getCurrentBranch r = some curBranch)
    (hth_len : theirCommit.length = 32)
    (hth_b : ∀ ch ∈ theirCommit, ch.toNat < 256)
    (hres : mergeBranch H r branch defaultMergeOptions who =
      some (result, r2)) :
    result.fastForward = true ∧ result.conflicts = false ∧
    result.mergeCommit = some theirCommit ∧
    r2.store = r.store ∧
    getRef r2 ("refs/heads/".toList ++ curBranch) = some theirCommit := by
  unfold mergeBranch at hres
  by_cases himp : isMergeInProgress r = true
  · rw [if_pos himp] at hres
    cases hres
  · rw [if_neg himp, hgr] at hres
    dsimp only at hres
    rw [hgc] at hres
    dsimp only at hres
    rw [hlca] at hres
    dsimp only at hres
    rw [hff] at hres
    dsimp only at hres
    rw [if_neg (by decide :
      ¬(defaultMergeOptions.ffOnly = true ∧ ¬true = true))] at hres
    rw [if_pos (by decide :
      (true = true ∧ ¬defaultMergeOptions.noFF = true))] at hres
    unfold doFastForward at hres
    rw [hcb] at hres
    dsimp only at hres
    cases hco : checkout (setRef r ("refs/heads/".toList ++ curBranch)
        theirCommit) theirCommit with
    | none => rw [hco] at hres; cases hres
    | some rc =>
      rw [hco] at hres
      dsimp only at hres
      injection hres with hres
      injection hres with h1 h2
      subst h1
      subst h2
      have hinv := checkout_inv _ _ _ hco
      refine ⟨rfl, rfl, rfl, hinv.1, ?_⟩
      unfold getRef
      rw [hinv.2.1]
      rw [show (setRef r ("refs/heads/".toList ++ curBranch)
          theirCommit).refs = setAssoc r.refs
          ("refs/heads/".toList ++ curBranch)
          (hashString theirCommit ++ ['\n']) from rfl]
      rw [lookup_setAssoc_self]
      dsimp only
      rw [List.getLast?_concat, if_pos rfl, List.dropLast_concat]
      exact parseHash_hashString theirCommit hth_len hth_b

set_option maxRecDepth 16000 in
theorem fastForward_advances_ref_no_new_commit_witness :
    ((mergeBranch exH exRepoFF "feature".toList defaultMergeOptions
        exWho).map (fun p => (p.1.fastForward, p.1.conflicts,
          getRef p.2 ("refs/heads/".toList ++ "main".toList)))).getD
        (false, true, none) = (true, false, some hCommitFeat) ∧
    ((mergeBranch exH exRepoFF "feature".toList defaultMergeOptions
        exWho).map (fun p => p.2.store)).getD [] = exRepoFF.store :=
  match hs : mergeBranch exH exRepoFF "feature".toList defaultMergeOptions
      exWho with
  | some (result, r2) => by
    have key := fastForward_advances_ref_no_new_commit exH exRepoFF
      "feature".toList "main".toList hCommitOurs hCommitFeat hCommitOurs
      exWho result r2 rfl rfl rfl rfl rfl (by decide) (by decide) hs
    constructor
    · simp [hs, key.1, key.2.1]
      exact key.2.2.2.2
    · simp [hs, key.2.2.2.1]
  | none => by
    have hsome : (mergeBranch exH exRepoFF "feature".toList
        defaultMergeOptions exWho).isSome = true := by decide
    rw [hs] at hsome
    cases hsome

/-! ## The push-pack BFS (C9) -/

theorem pushLoop_ok_sound (st : Store) (haveSet : List Hash) :
    ∀ (fuel : Nat) (queue visited result res : List Hash),
    pushLoop st haveSet fuel queue visited result = .ok res →
    result.Nodup → (∀ h ∈ result, h ∈ visited) →
    res.Nodup ∧
    (∀ h ∈ res, h ∈ result ∨
      (¬(h ∈ haveSet) ∧ storeExists st h = true)) := by
  intro fuel
  induction fuel with
  | zero =>
    intro queue visited result res h hnd hsub
    cases queue with
    | nil =>
      injection h with h
      subst h
      exact ⟨hnd, fun x hx => Or.inl hx⟩
    | cons current queue => cases h
  | succ fuel ih =>
    intro queue visited result res h hnd hsub
    cases queue with
    | nil =>
      injection h with h
      subst h
      exact ⟨hnd, fun x hx => Or.inl hx⟩
    | cons current queue =>
      unfold pushLoop at h
      by_cases hv : current ∈ visited
      · rw [if_pos hv] at h
        exact ih queue visited result res h hnd hsub
      · rw [if_neg hv] at h
        by_cases hhs : current ∈ haveSet
        · rw [if_pos hhs] at h
          exact ih queue visited result res h hnd hsub
        · rw [if_neg hhs] at h
          cases hsg : storeGet st current with
          | none => rw [hsg] at h; cases h
          | some obj =>
            rw [hsg] at h
            dsimp only at h
            have hnd1 : (result ++ [current]).Nodup := by
              rw [List.nodup_append]
              refine ⟨hnd, List.nodup_singleton _, ?_⟩
              intro a ha hac
              rw [List.mem_singleton] at hac
              subst hac
              exact hv (hsub a ha)
            have hsub1 : ∀ x ∈ result ++ [current],
                x ∈ visited ++ [current] := by
              intro x hx
              rcases List.mem_append.mp hx with hx | hx
              · exact List.mem_append.mpr (Or.inl (hsub x hx))
              · exact List.mem_append.mpr (Or.inr hx)
            have hstep : ∀ (queue2 : List Hash), pushLoop st haveSet fuel
                queue2 (visited ++ [current]) (result ++ [current]) =
                  .ok res →
                res.Nodup ∧ (∀ x ∈ res, x ∈ result ∨
                  (¬(x ∈ haveSet) ∧ storeExists st x = true)) := by
              intro queue2 h2
              have hout := ih queue2 _ _ res h2 hnd1 hsub1
              refine ⟨hout.1, ?_⟩
              intro x hx
              rcases hout.2 x hx with hx1 | hx1
              · rcases List.mem_append.mp hx1 with hx2 | hx2
                · exact Or.inl hx2
                · rw [List.mem_singleton] at hx2
                  subst hx2
                  exact Or.inr ⟨hhs, by simp [storeExists, hsg]⟩
              · exact Or.inr hx1
            cases hty : obj.type with
            | commit =>
              rw [hty] at h
              cases hdc : decodeCommitM obj.data with
              | none => rw [hdc] at h; cases h
              | some c =>
                rw [hdc] at h
                exact hstep _ h
            | tree =>
              rw [hty] at h
              cases hdt : decodeTree obj.data with
              | ok t => rw [hdt] at h; exact hstep _ h
              | err => rw [hdt] at h; cases h
              | panic => rw [hdt] at h; cases h
            | blob =>
              rw [hty] at h
              exact hstep _ h

theorem pushLoop_errMissing_sound (st : Store) (haveSet tips : List Hash) :
    ∀ (fuel : Nat) (queue visited result : List Hash) (hm : Hash),
    pushLoop st haveSet fuel queue visited result = .errMissing hm →
    (∀ q ∈ queue, q ∈ haveSet ∨ Reach st haveSet tips q) →
    Reach st haveSet tips hm ∧ storeGet st hm = none ∧
    ¬(hm ∈ haveSet) := by
  intro fuel
  induction fuel with
  | zero =>
    intro queue visited result hm h hq
    cases queue with
    | nil => cases h
    | cons current queue => cases h
  | succ fuel ih =>
    intro queue visited result hm h hq
    cases queue with
    | nil => cases h
    | cons current queue =>
      unfold pushLoop at h
      by_cases hv : current ∈ visited
      · rw [if_pos hv] at h
        exact ih queue visited result hm h
          (fun q hq' => hq q (List.mem_cons_of_mem _ hq'))
      · rw [if_neg hv] at h
        by_cases hhs : current ∈ haveSet
        · rw [if_pos hhs] at h
          exact ih queue visited result hm h
            (fun q hq' => hq q (List.mem_cons_of_mem _ hq'))
        · rw [if_neg hhs] at h
          have hreach : Reach st haveSet tips current := by
            rcases hq current (List.mem_cons_self _ _) with hc | hc
            · exact absurd hc hhs
            · exact hc
          cases hsg : storeGet st current with
          | none =>
            rw [hsg] at h
            injection h with h
            subst h
            exact ⟨hreach, hsg, hhs⟩
          | some obj =>
            rw [hsg] at h
            dsimp only at h
            have hqinv : ∀ (cs : List Hash), objChildren obj = some cs →
                ∀ q ∈ queue ++ cs, q ∈ haveSet ∨
                  Reach st haveSet tips q := by
              intro cs hcs q hq'
              rcases List.mem_append.mp hq' with hq' | hq'
              · exact hq q (List.mem_cons_of_mem _ hq')
              · by_cases hqh : q ∈ haveSet
                · exact Or.inl hqh
                · exact Or.inr
                    (Reach.child current q obj cs hreach hsg hcs hq' hqh)
            cases hty : obj.type with
            | commit =>
              rw [hty] at h
              cases hdc : decodeCommitM obj.data with
              | none => rw [hdc] at h; cases h
              | some c =>
                rw [hdc] at h
                refine ih _ _ _ hm h (hqinv (c.tree :: c.parents) ?_)
                unfold objChildren
                rw [hty, hdc]
            | tree =>
              rw [hty] at h
              cases hdt : decodeTree obj.data with
              | ok t =>
                rw [hdt] at h
                refine ih _ _ _ hm h (hqinv (t.entries.map (·.hash)) ?_)
                unfold objChildren
                rw [hty, hdt]
              | err => rw [hdt] at h; cases h
              | panic => rw [hdt] at h; cases h
            | blob =>
              rw [hty] at h
              exact ih _ _ _ hm h
                (fun q hq' => hq q (List.mem_cons_of_mem _ hq'))

theorem pushLoop_ok_closed (st : Store) (haveSet : List Hash) :
    ∀ (fuel : Nat) (queue visited result res : List Hash),
    pushLoop st haveSet fuel queue visited result = .ok res →
    visited = result →
    (∀ h ∈ result, h ∈ res) ∧
    (∀ q ∈ queue, q ∈ haveSet ∨ q ∈ res) ∧
    (∀ h, h ∈ res → ¬(h ∈ result) →
      ∀ (obj : GoObj) (cs : List Hash), storeGet st h = some obj →
      objChildren obj = some cs → ∀ c ∈ cs, c ∈ haveSet ∨ c ∈ res) := by
  intro fuel
  induction fuel with
  | zero =>
    intro queue visited result res h hvr
    cases queue with
    | nil =>
      injection h with h
      subst h
      refine ⟨fun x hx => hx, ?_, ?_⟩
      · intro q hq
        cases hq
      · intro x hx hnx
        exact absurd hx hnx
    | cons current queue => cases h
  | succ fuel ih =>
    intro queue visited result res h hvr
    cases queue with
    | nil =>
      injection h with h
      subst h
      refine ⟨fun x hx => hx, ?_, ?_⟩
      · intro q hq
        cases hq
      · intro x hx hnx
        exact absurd hx hnx
    | cons current queue =>
      unfold pushLoop at h
      by_cases hv : current ∈ visited
      · rw [if_pos hv] at h
        have hout := ih queue visited result res h hvr
        refine ⟨hout.1, ?_, hout.2.2⟩
        intro q hq
        rcases List.mem_cons.mp hq with hq | hq
        · subst hq
          exact Or.inr (hout.1 q (hvr ▸ hv))
        · exact hout.2.1 q hq
      · rw [if_neg hv] at h
        by_cases hhs : current ∈ haveSet
        · rw [if_pos hhs] at h
          have hout := ih queue visited result res h hvr
          refine ⟨hout.1, ?_, hout.2.2⟩
          intro q hq
          rcases List.mem_cons.mp hq with hq | hq
          · subst hq
            exact Or.inl hhs
          · exact hout.2.1 q hq
        · rw [if_neg hhs] at h
          cases hsg : storeGet st current with
          | none => rw [hsg] at h; cases h
          | some obj =>
            rw [hsg] at h
            dsimp only at h
            have hvr1 : visited ++ [current] = result ++ [current] := by
              rw [hvr]
            have hstep : ∀ (cs : List Hash), objChildren obj = some cs →
                pushLoop st haveSet fuel (queue ++ cs)
                  (visited ++ [current]) (result ++ [current]) = .ok res →
                (∀ h ∈ result, h ∈ res) ∧
                (∀ q ∈ current :: queue, q ∈ haveSet ∨ q ∈ res) ∧
                (∀ h, h ∈ res → ¬(h ∈ result) →
                  ∀ (obj : GoObj) (cs : List Hash),
                  storeGet st h = some obj → objChildren obj = some cs →
                  ∀ c ∈ cs, c ∈ haveSet ∨ c ∈ res) := by
              intro cs hcs h2
              have hout := ih (queue ++ cs) _ _ res h2 hvr1
              have hcur : current ∈ res :=
                hout.1 current (List.mem_append.mpr (Or.inr
                  (List.mem_singleton.mpr rfl)))
              refine ⟨?_, ?_, ?_⟩
              · intro x hx
                exact hout.1 x (List.mem_append.mpr (Or.inl hx))
              · intro q hq
                rcases List.mem_cons.mp hq with hq | hq
                · subst hq
                  exact Or.inr hcur
                · exact hout.2.1 q (List.mem_append.mpr (Or.inl hq))
              · intro x hx hnx obj2 cs2 hsg2 hcs2 c hc
                by_cases hxc : x = current
                · subst hxc
                  rw [hsg] at hsg2
                  injection hsg2 with hsg2
                  subst hsg2
                  rw [hcs] at hcs2
                  injection hcs2 with hcs2
                  subst hcs2
                  exact hout.2.1 c (List.mem_append.mpr (Or.inr hc))
                · refine hout.2.2 x hx ?_ obj2 cs2 hsg2 hcs2 c hc
                  intro hx1
                  rcases List.mem_append.mp hx1 with hx2 | hx2
                  · exact hnx hx2
                  · exact hxc (List.mem_singleton.mp hx2)
            cases hty : obj.type with
            | commit =>
              rw [hty] at h
              cases hdc : decodeCommitM obj.data with
              | none => rw [hdc] at h; cases h
              | some c =>
                rw [hdc] at h
                refine hstep (c.tree :: c.parents) ?_ h
                unfold objChildren
                rw [hty, hdc]
            | tree =>
              rw [hty] at h
              cases hdt : decodeTree obj.data with
              | ok t =>
                rw [hdt] at h
                refine hstep (t.entries.map (·.hash)) ?_ h
                unfold objChildren
                rw [hty, hdt]
              | err => rw [hdt] at h; cases h
              | panic => rw [hdt] at h; cases h
            | blob =>
              rw [hty] at h
              have hblob : pushLoop st haveSet fuel (queue ++ [])
                  (visited ++ [current]) (result ++ [current]) = .ok res := by
                rw [List.append_nil]
                exact h
              refine hstep [] ?_ hblob
              unfold objChildren
              rw [hty]

theorem pushLoop_ok_reach (st : Store) (haveSet tips : List Hash) :
    ∀ (fuel : Nat) (queue visited result res : List Hash),
    pushLoop st haveSet fuel queue visited result = .ok res →
    (∀ q ∈ queue, q ∈ haveSet ∨ Reach st haveSet tips q) →
    (∀ h ∈ result, Reach st haveSet tips h) →
    ∀ h ∈ res, Reach st haveSet tips h := by
  intro fuel
  induction fuel with
  | zero =>
    intro queue visited result res h hq hr
    cases queue with
    | nil =>
      injection h with h
      subst h
      exact hr
    | cons current queue => cases h
  | succ fuel ih =>
    intro queue visited result res h hq hr
    cases queue with
    | nil =>
      injection h with h
      subst h
      exact hr
    | cons current queue =>
      unfold pushLoop at h
      by_cases hv : current ∈ visited
      · rw [if_pos hv] at h
        exact ih queue visited result res h
          (fun q hq' => hq q (List.mem_cons_of_mem _ hq')) hr
      · rw [if_neg hv] at h
        by_cases hhs : current ∈ haveSet
        · rw [if_pos hhs] at h
          exact ih queue visited result res h
            (fun q hq' => hq q (List.mem_cons_of_mem _ hq')) hr
        · rw [if_neg hhs] at h
          have hreach : Reach st haveSet tips current := by
            rcases hq current (List.mem_cons_self _ _) with hc | hc
            · exact absurd hc hhs
            · exact hc
          have hr1 : ∀ x ∈ result ++ [current],
              Reach st haveSet tips x := by
            intro x hx
            rcases List.mem_append.mp hx with hx | hx
            · exact hr x hx
            · rw [List.mem_singleton] at hx
              subst hx
              exact hreach
          cases hsg : storeGet st current with
          | none => rw [hsg] at h; cases h
          | some obj =>
            rw [hsg] at h
            dsimp only at h
            have hqinv : ∀ (cs : List Hash), objChildren obj = some cs →
                ∀ q ∈ queue ++ cs, q ∈ haveSet ∨
                  Reach st haveSet tips q := by
              intro cs hcs q hq'
              rcases List.mem_append.mp hq' with hq' | hq'
              · exact hq q (List.mem_cons_of_mem _ hq')
              · by_cases hqh : q ∈ haveSet
                · exact Or.inl hqh
                · exact Or.inr
                    (Reach.child current q obj cs hreach hsg hcs hq' hqh)
            cases hty : obj.type with
            | commit =>
              rw [hty] at h
              cases hdc : decodeCommitM obj.data with
              | none => rw [hdc] at h; cases h
              | some c =>
                rw [hdc] at h
                refine ih _ _ _ res h (hqinv (c.tree :: c.parents) ?_) hr1
                unfold objChildren
                rw [hty, hdc]
            | tree =>
              rw [hty] at h
              cases hdt : decodeTree obj.data with
              | ok t =>
                rw [hdt] at h
                refine ih _ _ _ res h
                  (hqinv (t.entries.map (·.hash)) ?_) hr1
                unfold objChildren
                rw [hty, hdt]
              | err => rw [hdt] at h; cases h
              | panic => rw [hdt] at h; cases h
            | blob =>
              rw [hty] at h
              exact ih _ _ _ res h
                (fun q hq' => hq q (List.mem_cons_of_mem _ hq')) hr1

theorem pushLoop_decode_err (st : Store) (haveSet : List Hash) :
    ∀ (fuel : Nat) (queue visited result : List Hash),
    (pushLoop st haveSet fuel queue visited result = .errDecode ∨
     pushLoop st haveSet fuel queue visited result = .panicked) →
    ∃ (h : Hash) (obj : GoObj), storeGet st h = some obj ∧
      objChildren obj = none := by
  intro fuel
  induction fuel with
  | zero =>
    intro queue visited result h
    cases queue with
    | nil => rcases h with h | h <;> cases h
    | cons current queue => rcases h with h | h <;> cases h
  | succ fuel ih =>
    intro queue visited result h
    cases queue with
    | nil => rcases h with h | h <;> cases h
    | cons current queue =>
      unfold pushLoop at h
      by_cases hv : current ∈ visited
      · rw [if_pos hv] at h
        exact ih queue visited result h
      · rw [if_neg hv] at h
        by_cases hhs : current ∈ haveSet
        · rw [if_pos hhs] at h
          exact ih queue visited result h
        · rw [if_neg hhs] at h
          cases hsg : storeGet st current with
          | none =>
            rw [hsg] at h
            rcases h with h | h <;> cases h
          | some obj =>
            rw [hsg] at h
            dsimp only at h
            cases hty : obj.type with
            | commit =>
              rw [hty] at h
              cases hdc : decodeCommitM obj.data with
              | none =>
                refine ⟨current, obj, hsg, ?_⟩
                unfold objChildren
                rw [hty, hdc]
              | some c =>
                rw [hdc] at h
                exact ih _ _ _ h
            | tree =>
              rw [hty] at h
              cases hdt : decodeTree obj.data with
              | ok t =>
                rw [hdt] at h
                exact ih _ _ _ h
              | err =>
                refine ⟨current, obj, hsg, ?_⟩
                unfold objChildren
                rw [hty, hdt]
              | panic =>
                refine ⟨current, obj, hsg, ?_⟩
                unfold objChildren
                rw [hty, hdt]
            | blob =>
              rw [hty] at h
              exact ih _ _ _ h

theorem mem_of_lookup_some {α : Type} :
    ∀ (l : List (Bytes × α)) (k : Bytes) (v : α), l.lookup k = some v →
      (k, v) ∈ l
  | [], _, _, h => by cases h
  | (a, b) :: t, k, v, h => by
    by_cases hk : (k == a) = true
    · rw [lookup_cons_beq_true k a b t hk] at h
      injection h with h
      subst h
      have hka : k = a := by simpa using hk
      subst hka
      exact List.mem_cons_self _ _
    · have hk' : (k == a) = false := Bool.eq_false_iff.mpr hk
      rw [lookup_cons_beq_false k a b t hk'] at h
      exact List.mem_cons_of_mem _ (mem_of_lookup_some t k v h)

/-- **C9.**  `CalculatePushPack` is a BFS from the local tips that
never emits a remote-have node and never descends through one (every
emitted node is reachable through non-have nodes only), emits every
such reachable node exactly once (the result has no duplicates and is
closed under children), and — provided every stored object decodes and
the fuel artefact does not fire — returns the fatal
`local object missing` error exactly when some reachable node outside
the have set is absent from the local store. -/
theorem calculatePushPack_spec (st : Store) (tips haveSet : List Hash)
    (hwf : ∀ p ∈ st, ¬(objChildren p.2 = none))
    (hnf : ¬(calculatePushPack st tips haveSet = .fuelOut)) :
    (∀ res, calculatePushPack st tips haveSet = .ok res →
      res.Nodup ∧
      (∀ h ∈ res, ¬(h ∈ haveSet) ∧ storeExists st h = true) ∧
      (∀ h, Reach st haveSet tips h → h ∈ res) ∧
      (∀ h ∈ res, Reach st haveSet tips h)) ∧
    (∀ h, calculatePushPack st tips haveSet = .errMissing h →
      Reach st haveSet tips h ∧ storeGet st h = none ∧
      ¬(h ∈ haveSet)) ∧
    ((∃ h, Reach st haveSet tips h ∧ storeGet st h = none) ↔
      (∃ h, calculatePushPack st tips haveSet = .errMissing h)) := by
  have hqtips : ∀ q ∈ tips, q ∈ haveSet ∨ Reach st haveSet tips q := by
    intro q hq
    by_cases hqh : q ∈ haveSet
    · exact Or.inl hqh
    · exact Or.inr (Reach.tip q hq hqh)
  have hOk : ∀ res, calculatePushPack st tips haveSet = .ok res →
      res.Nodup ∧
      (∀ h ∈ res, ¬(h ∈ haveSet) ∧ storeExists st h = true) ∧
      (∀ h, Reach st haveSet tips h → h ∈ res) ∧
      (∀ h ∈ res, Reach st haveSet tips h) := by
    intro res hres
    unfold calculatePushPack at hres
    have h1 := pushLoop_ok_sound st haveSet _ tips [] [] res hres
      List.nodup_nil (by intro x hx; cases hx)
    have h2 := pushLoop_ok_closed st haveSet _ tips [] [] res hres rfl
    have h3 := pushLoop_ok_reach st haveSet tips _ tips [] [] res hres
      hqtips (by intro x hx; cases hx)
    refine ⟨h1.1, ?_, ?_, h3⟩
    · intro h hh
      rcases h1.2 h hh with hc | hc
      · cases hc
      · exact hc
    · intro h hr
      induction hr with
      | tip x hmem hnh =>
        rcases h2.2.1 x hmem with hh | hh
        · exact absurd hh hnh
        · exact hh
      | child x c obj cs hrx hsg hoc hcm hch ihh =>
        rcases h2.2.2 x ihh (by intro hx; cases hx) obj cs hsg hoc c hcm
          with hh | hh
        · exact absurd hh hch
        · exact hh
  have hErr : ∀ h, calculatePushPack st tips haveSet = .errMissing h →
      Reach st haveSet tips h ∧ storeGet st h = none ∧
      ¬(h ∈ haveSet) := by
    intro h hres
    unfold calculatePushPack at hres
    exact pushLoop_errMissing_sound st haveSet tips _ tips [] [] h hres
      hqtips
  refine ⟨hOk, hErr, ?_, ?_⟩
  · rintro ⟨h, hr, hmiss⟩
    cases hpp : calculatePushPack st tips haveSet with
    | ok res =>
      have hmem := (hOk res hpp).2.2.1 h hr
      have hex := ((hOk res hpp).2.1 h hmem).2
      unfold storeExists at hex
      rw [hmiss] at hex
      cases hex
    | errMissing hm => exact ⟨hm, rfl⟩
    | errDecode =>
      obtain ⟨h0, obj, hsg, hnone⟩ :=
        pushLoop_decode_err st haveSet _ tips [] [] (Or.inl hpp)
      exact absurd hnone (hwf (h0, obj) (mem_of_lookup_some st h0 obj hsg))
    | panicked =>
      obtain ⟨h0, obj, hsg, hnone⟩ :=
        pushLoop_decode_err st haveSet _ tips [] [] (Or.inr hpp)
      exact absurd hnone (hwf (h0, obj) (mem_of_lookup_some st h0 obj hsg))
    | fuelOut => exact absurd hpp hnf
  · rintro ⟨h, hres⟩
    exact ⟨h, (hErr h hres).1, (hErr h hres).2.1⟩

set_option maxRecDepth 16000 in
theorem calculatePushPack_spec_witness :
    calculatePushPack exStoreFF [hCommitFeat] [hCommitBase] =
      .ok [hCommitFeat, hTreeTheirs, hCommitOurs, hBlobTheirs, hTreeOurs,
        hBlobOurs] ∧
    [hCommitFeat, hTreeTheirs, hCommitOurs, hBlobTheirs, hTreeOurs,
        hBlobOurs].Nodup :=
  have hok : calculatePushPack exStoreFF [hCommitFeat] [hCommitBase] =
      .ok [hCommitFeat, hTreeTheirs, hCommitOurs, hBlobTheirs, hTreeOurs,
        hBlobOurs] := by decide
  ⟨hok, ((calculatePushPack_spec exStoreFF [hCommitFeat] [hCommitBase]
      (by decide) (by decide)).1 _ hok).1⟩

end Astral
